import Mathlib

/-!
# EventDrivenSimulation: the arrival and departure handlers of `processor.h`

A shallow embedding of `processArrival` and `processDeparture` and the
properties of the single-teller bank simulation they implement.

Modelling conventions.

* `int` values (`time`, `transLength`, the waited time) are integers in the
  32-bit range; the additions and subtractions of the handlers are `intAdd`
  and `intSub`, which wrap around as the compiled program does.  `InIntRange`
  states that a mathematical result fits, that is, that no overflow occurs.
* The three reference parameters `eventQueue`, `bankLine`, `tellerAvailable`
  that a handler mutates are one `State` value.  A handler returns the state
  after the call, or `none` where the behaviour of the C++ code is undefined:
  `pop()` on an empty queue, or a read through a reference to an element
  that no longer exists.
* The parameter `event` is a reference (`const std::shared_ptr<Event> &`).
  An `EventRef` says what the caller passes: a pointer of its own
  (`EventRef.own`, for instance a copy of `eventQueue.top()`), or
  `eventQueue.top()` itself (`EventRef.top`), a reference to the first slot
  of the queue, which holds the new head once `pop()` has run.  Every
  `event->...` of the source is a read through that reference at the point
  where it stands.
* `std::queue` is a list whose head is the front of the line.
* `std::priority_queue<..., CustomCompare>` is used through `top`, `pop` and
  `push` only.  `CustomCompare` is not part of `processor.h`, so the queue
  discipline is a parameter: a `PriorityQueue Q` gives the operations on a
  carrier `Q`, `PriorityQueue.Lawful` states what every priority queue
  guarantees (the top is an element, `pop` removes the top, `push` adds one
  element), and `PriorityQueue.MinTime` states that the comparator orders by
  `time` ascending.  Nothing is assumed about how ties are broken.
* The line written to `std::cout` is not modelled, except that it reads
  `event->time` after the pop in `processArrival`.
-/

namespace EventDrivenSimulation

/-! ## Data model -/

/-- Modelled from the spec: the kind of an event.  The declaration of `Event`
is not in `processor.h`; the handlers build departures with the character
`'D'`, which is `EventKind.Departure` here. -/
inductive EventKind where
  | Arrival
  | Departure
  deriving DecidableEq, Repr

/-- Modelled from the spec: the `Event` record, whose declaration is not in
`processor.h`.  The fields are in the order of the constructor call
`Event('D', departureTime, 0, timeWaited)`; `time` and `transLength` are the
names the handlers read, and the two trailing constructor arguments default
to `0`. -/
structure Event where
  kind : EventKind
  time : Int
  transLength : Int
  waitAccumulated : Int
  deriving DecidableEq, Repr

/-- Modelled from the spec: the `Customer` record, whose declaration is not in
`processor.h`.  The handlers build it as `Customer(event->time,
event->transLength)` and read `customer->time`, `customer->transLength`. -/
structure Customer where
  time : Int
  transLength : Int
  deriving DecidableEq, Repr

/-- The value of type `int` (32 bits, two's complement) that a mathematical
integer wraps to. -/
def wrapInt (x : Int) : Int :=
  (x + 2147483648) % 4294967296 - 2147483648

/-- The integer `x` is a value of type `int`: `INT_MIN ≤ x ≤ INT_MAX`. -/
@[reducible] def InIntRange (x : Int) : Prop :=
  -2147483648 ≤ x ∧ x ≤ 2147483647

/-- The addition of two `int` values as the program computes it. -/
def intAdd (a b : Int) : Int :=
  wrapInt (a + b)

/-- The subtraction of two `int` values as the program computes it. -/
def intSub (a b : Int) : Int :=
  wrapInt (a - b)

/-- The constructor call `Event('D', departureTime)` of `processArrival`. -/
def Event.departure (departureTime : Int) : Event :=
  Event.mk EventKind.Departure departureTime 0 0

/-- The constructor call `Event('D', departureTime, 0, timeWaited)` of
`processDeparture`. -/
def Event.departureAfterWait (departureTime timeWaited : Int) : Event :=
  Event.mk EventKind.Departure departureTime 0 timeWaited

/-- The operations of `std::priority_queue<shared_ptr<Event>, ...,
CustomCompare>` on a carrier `Q`, together with the multiset of events a queue
holds. -/
structure PriorityQueue (Q : Type) where
  contents : Q → Multiset Event
  top : Q → Option Event
  pop : Q → Q
  push : Q → Event → Q

/-- What every priority queue guarantees, whatever its comparator: the top is
an element of the queue and exists unless the queue is empty, `pop` removes
one copy of the top and `push` adds one element. -/
structure PriorityQueue.Lawful {Q : Type} (P : PriorityQueue Q) : Prop where
  top_eq_none : ∀ q, P.top q = none ↔ P.contents q = 0
  top_mem : ∀ q e, P.top q = some e → e ∈ P.contents q
  contents_pop : ∀ q e, P.top q = some e → P.contents (P.pop q) = (P.contents q).erase e
  contents_push : ∀ q e, P.contents (P.push q e) = e ::ₘ P.contents q

/-- Modelled from the spec: `CustomCompare` (not in `processor.h`) orders the
events by `time` ascending, so the top has the least time of the queue.  Ties
may be broken in any way. -/
def PriorityQueue.MinTime {Q : Type} (P : PriorityQueue Q) : Prop :=
  ∀ q e, P.top q = some e → ∀ x ∈ P.contents q, e.time ≤ x.time

/-- What the caller passes for the parameter `const std::shared_ptr<Event>
&event`: a pointer of its own to an event, or `eventQueue.top()`, the first
slot of the queue. -/
inductive EventRef where
  | own (event : Event)
  | top
  deriving DecidableEq, Repr

/-- The event that `event->...` reads when the queue is `q`: the event of the
caller's own pointer, or the event in the first slot of the queue.  There is
none when the reference is to the first slot of an empty queue. -/
def EventRef.read {Q : Type} (P : PriorityQueue Q) (event : EventRef) (q : Q) : Option Event :=
  match event with
  | EventRef.own e => some e
  | EventRef.top => P.top q

/-- The joint state the handlers mutate through their reference parameters. -/
structure State (Q : Type) where
  eventQueue : Q
  bankLine : List Customer
  tellerAvailable : Bool
  deriving DecidableEq

/-! ## The handlers -/

/-- The function `processArrival` of `processor.h`.  `event->time` is read
before `eventQueue.pop()` (line 47); `event->time` and `event->transLength`
are read after it (lines 49, 53, 59). -/
def processArrival {Q : Type} (P : PriorityQueue Q) (event : EventRef) (s : State Q) :
    Option (State Q) :=
  -- int currentTime{event->time};
  match event.read P s.eventQueue with
  | none => none
  | some atEntry =>
    let currentTime := atEntry.time
    -- eventQueue.pop();
    match P.top s.eventQueue with
    | none => none
    | some _ =>
      let eventQueue := P.pop s.eventQueue
      -- std::cout << ... << event->time
      match event.read P eventQueue with
      | none => none
      | some afterPop =>
        -- Straight to the window
        if s.tellerAvailable && s.bankLine.isEmpty then
          let departureTime := intAdd currentTime afterPop.transLength
          some
            { eventQueue := P.push eventQueue (Event.departure departureTime)
              bankLine := s.bankLine
              tellerAvailable := false }
        -- Back of the line
        else
          some
            { eventQueue := eventQueue
              bankLine := s.bankLine ++ [Customer.mk afterPop.time afterPop.transLength]
              tellerAvailable := s.tellerAvailable }

/-- The function `processDeparture` of `processor.h`.  `event->time` is read
before `eventQueue.pop()` (line 89) and `event` is not read again. -/
def processDeparture {Q : Type} (P : PriorityQueue Q) (event : EventRef) (s : State Q) :
    Option (State Q) :=
  -- int currentTime{event->time};
  match event.read P s.eventQueue with
  | none => none
  | some atEntry =>
    let currentTime := atEntry.time
    -- eventQueue.pop();
    match P.top s.eventQueue with
    | none => none
    | some _ =>
      let eventQueue := P.pop s.eventQueue
      match s.bankLine with
      -- Line moves forward
      | customer :: rest =>
        let timeWaited := intSub currentTime customer.time
        let departureTime := intAdd currentTime customer.transLength
        some
          { eventQueue := P.push eventQueue (Event.departureAfterWait departureTime timeWaited)
            bankLine := rest
            tellerAvailable := s.tellerAvailable }
      -- Take a break
      | [] =>
        some
          { eventQueue := eventQueue
            bankLine := []
            tellerAvailable := true }

/-- The state `processArrival` returns when it returns one, as a function of
what it reads through `event`: `currentTime` before the pop and the event
`afterPop` after it (`processArrival_eq`). -/
def arrivalState {Q : Type} (P : PriorityQueue Q) (currentTime : Int) (afterPop : Event)
    (s : State Q) : State Q :=
  if s.tellerAvailable && s.bankLine.isEmpty then
    { eventQueue :=
        P.push (P.pop s.eventQueue) (Event.departure (intAdd currentTime afterPop.transLength))
      bankLine := s.bankLine
      tellerAvailable := false }
  else
    { eventQueue := P.pop s.eventQueue
      bankLine := s.bankLine ++ [Customer.mk afterPop.time afterPop.transLength]
      tellerAvailable := s.tellerAvailable }

/-- The state `processDeparture` returns when it returns one, as a function of
the `currentTime` it reads through `event` (`processDeparture_eq`). -/
def departureState {Q : Type} (P : PriorityQueue Q) (currentTime : Int) (s : State Q) :
    State Q :=
  match s.bankLine with
  | customer :: rest =>
    { eventQueue :=
        P.push (P.pop s.eventQueue)
          (Event.departureAfterWait (intAdd currentTime customer.transLength)
            (intSub currentTime customer.time))
      bankLine := rest
      tellerAvailable := s.tellerAvailable }
  | [] =>
    { eventQueue := P.pop s.eventQueue
      bankLine := []
      tellerAvailable := true }

/-! ## A concrete priority queue

An executable instance of the interface: the events are kept in insertion
order, the top is the first event of least time. -/

/-- The first event of least `time` of a list. -/
def minEvent : List Event → Option Event
  | [] => none
  | e :: q =>
    match minEvent q with
    | none => some e
    | some m => if e.time ≤ m.time then some e else some m

/-- A priority queue on lists of events, ordered by `time`, the earliest
inserted first among equal times.  The handlers never call `pop` on the empty
queue, a case that `std::priority_queue` leaves undefined. -/
def listQueue : PriorityQueue (List Event) where
  contents := fun q => (q : Multiset Event)
  top := minEvent
  pop := fun q =>
    match minEvent q with
    | none => q
    | some m => q.erase m
  push := fun q e => q ++ [e]

/-! ## The driving loop and the invariants -/

/-- Modelled from the spec: one step of the driving loop, which is not in
`processor.h`.  The head of the scheduler is passed, as a pointer of the
caller's own, to the handler of its kind; there is no step when the scheduler
is empty. -/
def step {Q : Type} (P : PriorityQueue Q) (s : State Q) : Option (State Q) :=
  match P.top s.eventQueue with
  | none => none
  | some event =>
    match event.kind with
    | EventKind.Arrival => processArrival P (EventRef.own event) s
    | EventKind.Departure => processDeparture P (EventRef.own event) s

/-- The state after `n` steps of the driving loop, if the loop takes that
many. -/
def stepN {Q : Type} (P : PriorityQueue Q) : Nat → State Q → Option (State Q)
  | 0, s => some s
  | n + 1, s => (step P s).bind (stepN P n)

/-- The state `s'` is reached from `s` by finitely many steps of the driving
loop. -/
inductive Steps {Q : Type} (P : PriorityQueue Q) : State Q → State Q → Prop where
  | refl (s : State Q) : Steps P s s
  | tail (s s' s'' : State Q) : Steps P s s' → step P s' = some s'' → Steps P s s''

/-- The state `s` is reached from an initial state (teller available, bank
line empty, any scheduler) by finitely many calls of the handlers, each with
any event reference. -/
inductive Reachable {Q : Type} (P : PriorityQueue Q) : State Q → Prop where
  | init (q : Q) : Reachable P (State.mk q [] true)
  | arrival (event : EventRef) (s s' : State Q) :
      Reachable P s → processArrival P event s = some s' → Reachable P s'
  | departure (event : EventRef) (s s' : State Q) :
      Reachable P s → processDeparture P event s = some s' → Reachable P s'

/-- An initial state of a run: the teller is available, the bank line is empty
and the scheduler holds Arrival events only. -/
def Seeded {Q : Type} (P : PriorityQueue Q) (s : State Q) : Prop :=
  s.tellerAvailable = true ∧ s.bankLine = [] ∧
    ∀ e ∈ P.contents s.eventQueue, e.kind = EventKind.Arrival

/-- The next step of the driving loop from `s` computes without overflow: the
departure time when the head is an Arrival that goes straight to the window,
the departure time and the waited time when the head is a Departure and the
line is not empty. -/
def NoOverflowAt {Q : Type} (P : PriorityQueue Q) (s : State Q) : Prop :=
  ∀ event, P.top s.eventQueue = some event →
    (event.kind = EventKind.Arrival → s.tellerAvailable = true → s.bankLine = [] →
        InIntRange (event.time + event.transLength)) ∧
      (event.kind = EventKind.Departure →
        ∀ (c : Customer) (rest : List Customer), s.bankLine = c :: rest →
          InIntRange (event.time + c.transLength) ∧ InIntRange (event.time - c.time))

/-- The joint invariant: the teller is busy or the bank line is empty. -/
def JointInvariant {Q : Type} (s : State Q) : Prop :=
  s.tellerAvailable = false ∨ s.bankLine = []

/-- The number of Departure events pending in the scheduler. -/
def departuresPending {Q : Type} (P : PriorityQueue Q) (s : State Q) : Nat :=
  (P.contents s.eventQueue).countP (fun e => e.kind = EventKind.Departure)

/-- The server-state invariant: the teller is busy if and only if a Departure
event is pending in the scheduler, and at most one Departure event is
pending. -/
def ServerInvariant {Q : Type} (P : PriorityQueue Q) (s : State Q) : Prop :=
  (s.tellerAvailable = false ↔
      ∃ e ∈ P.contents s.eventQueue, e.kind = EventKind.Departure) ∧
    departuresPending P s ≤ 1

/-- Modelled from the spec: the total wait time the engine accumulates over the
first `n` steps of the driving loop from `s` (the loop is not in
`processor.h`): the waited time carried by each Departure event that is
popped. -/
def totalWaitTime {Q : Type} (P : PriorityQueue Q) : Nat → State Q → Int
  | 0, _ => 0
  | n + 1, s =>
    match P.top s.eventQueue, step P s with
    | some event, some s' =>
      (if event.kind = EventKind.Departure then event.waitAccumulated else 0)
        + totalWaitTime P n s'
    | _, _ => 0

/-- The invariant behind the non-negative waits: no customer of the line
arrived after the time of a pending event, the customers of the line and the
pending Arrival events have non-negative service durations, and the pending
Departure events carry non-negative waited times. -/
def WaitInvariant {Q : Type} (P : PriorityQueue Q) (s : State Q) : Prop :=
  (∀ c ∈ s.bankLine, ∀ x ∈ P.contents s.eventQueue, c.time ≤ x.time) ∧
    (∀ c ∈ s.bankLine, 0 ≤ c.transLength) ∧
    (∀ x ∈ P.contents s.eventQueue, x.kind = EventKind.Arrival → 0 ≤ x.transLength) ∧
    (∀ x ∈ P.contents s.eventQueue, x.kind = EventKind.Departure → 0 ≤ x.waitAccumulated)

/-- The number of Arrival events pending in the scheduler. -/
def arrivalsPending {Q : Type} (P : PriorityQueue Q) (s : State Q) : Nat :=
  (P.contents s.eventQueue).countP (fun e => e.kind = EventKind.Arrival)

/-- The outcome of a run of the driving loop: the final state and the number
of calls of each handler. -/
structure RunResult (Q : Type) where
  final : State Q
  arrivals : Nat
  departures : Nat

/-- Modelled from the spec: `runToCompletion`, the driving loop, which is not
in `processor.h`.  While the scheduler is not empty its head is passed, as a
pointer of the caller's own, to the handler of its kind.  The fuel bounds the
number of handler calls: the result is `none` when the fuel is used up before
the scheduler is empty. -/
def runToCompletion {Q : Type} (P : PriorityQueue Q) : Nat → State Q → Option (RunResult Q)
  | 0, s =>
    match P.top s.eventQueue with
    | none => some (RunResult.mk s 0 0)
    | some _ => none
  | fuel + 1, s =>
    match P.top s.eventQueue with
    | none => some (RunResult.mk s 0 0)
    | some event =>
      match event.kind with
      | EventKind.Arrival =>
        (processArrival P (EventRef.own event) s).bind fun s' =>
          (runToCompletion P fuel s').map
            (fun r => RunResult.mk r.final (r.arrivals + 1) r.departures)
      | EventKind.Departure =>
        (processDeparture P (EventRef.own event) s).bind fun s' =>
          (runToCompletion P fuel s').map
            (fun r => RunResult.mk r.final r.arrivals (r.departures + 1))

/-- Modelled from the spec: the dispatch of the driving loop, which is not in
`processor.h`: an event is passed, as a pointer of the caller's own, to the
handler of its kind. -/
def dispatch {Q : Type} (P : PriorityQueue Q) (event : Event) (s : State Q) :
    Option (State Q) :=
  match event.kind with
  | EventKind.Arrival => processArrival P (EventRef.own event) s
  | EventKind.Departure => processDeparture P (EventRef.own event) s

/-- The customers at the front of the line `before` that have left it in the
line `after`. -/
def leftLine (before after : List Customer) : List Customer :=
  before.take (before.length - after.length)

/-- The customers that leave the line (begin service), in the order in which
they leave it, when the events of a list are dispatched one after the other
from the state `s`, as long as the calls are defined. -/
def served {Q : Type} (P : PriorityQueue Q) : List Event → State Q → List Customer
  | [], _ => []
  | event :: events, s =>
    match dispatch P event s with
    | none => []
    | some s' => leftLine s.bankLine s'.bankLine ++ served P events s'

/-- A list of customers is ordered by non-decreasing arrival time. -/
def LineSorted (line : List Customer) : Prop :=
  line.Pairwise (fun a b => a.time ≤ b.time)

/-! ## Lemmas on the concrete priority queue -/

theorem minEvent_eq_none (q : List Event) : minEvent q = none ↔ q = [] := by
  cases q with
  | nil => simp [minEvent]
  | cons e q =>
    simp only [minEvent]
    cases minEvent q with
    | none => simp
    | some m => by_cases h : e.time ≤ m.time <;> simp [h]

theorem minEvent_mem (q : List Event) (e : Event) (h : minEvent q = some e) : e ∈ q := by
  induction q generalizing e with
  | nil => simp [minEvent] at h
  | cons a q ih =>
    simp only [minEvent] at h
    cases hm : minEvent q with
    | none =>
      rw [hm] at h
      simp only [Option.some.injEq] at h
      simp [h]
    | some m =>
      rw [hm] at h
      by_cases hle : a.time ≤ m.time
      · simp only [hle, if_true, Option.some.injEq] at h
        simp [h]
      · simp only [hle, if_false, Option.some.injEq] at h
        exact List.mem_cons_of_mem _ (ih e (by rw [hm, h]))

theorem minEvent_le (q : List Event) (e : Event) (h : minEvent q = some e) :
    ∀ x ∈ q, e.time ≤ x.time := by
  induction q generalizing e with
  | nil => simp
  | cons a q ih =>
    simp only [minEvent] at h
    intro x hx
    cases hm : minEvent q with
    | none =>
      rw [hm] at h
      simp only [Option.some.injEq] at h
      have hq : q = [] := (minEvent_eq_none q).1 hm
      subst hq
      simp only [List.mem_singleton] at hx
      rw [hx, h]
    | some m =>
      rw [hm] at h
      have hmq := ih m hm
      by_cases hle : a.time ≤ m.time
      · simp only [hle, if_true, Option.some.injEq] at h
        subst h
        rcases List.mem_cons.1 hx with hxa | hxq
        · rw [hxa]
        · exact le_trans hle (hmq x hxq)
      · simp only [hle, if_false, Option.some.injEq] at h
        subst h
        rcases List.mem_cons.1 hx with hxa | hxq
        · rw [hxa]; omega
        · exact hmq x hxq

theorem listQueue_lawful : listQueue.Lawful where
  top_eq_none := by
    intro q
    simp [listQueue, minEvent_eq_none]
  top_mem := by
    intro q e h
    exact Multiset.mem_coe.2 (minEvent_mem q e h)
  contents_pop := by
    intro q e h
    have h2 : minEvent q = some e := h
    simp [listQueue, h2]
  contents_push := by
    intro q e
    simp [listQueue]

theorem listQueue_minTime : listQueue.MinTime := by
  intro q e h x hx
  exact minEvent_le q e h x (Multiset.mem_coe.1 hx)

/-! ## Lemmas on the `int` arithmetic -/

theorem wrapInt_of_inRange (x : Int) (h : InIntRange x) : wrapInt x = x := by
  unfold wrapInt
  obtain ⟨h1, h2⟩ := h
  omega

theorem intAdd_of_inRange (a b : Int) (h : InIntRange (a + b)) : intAdd a b = a + b :=
  wrapInt_of_inRange _ h

theorem intSub_of_inRange (a b : Int) (h : InIntRange (a - b)) : intSub a b = a - b :=
  wrapInt_of_inRange _ h

/-! ## What the handlers return -/

theorem processArrival_eq {Q : Type} (P : PriorityQueue Q) (event : EventRef) (s : State Q)
    (atEntry head afterPop : Event)
    (hentry : event.read P s.eventQueue = some atEntry)
    (hhead : P.top s.eventQueue = some head)
    (hafter : event.read P (P.pop s.eventQueue) = some afterPop) :
    processArrival P event s = some (arrivalState P atEntry.time afterPop s) := by
  unfold processArrival arrivalState
  simp only [hentry, hhead, hafter]
  split <;> rfl

theorem processArrival_inv {Q : Type} (P : PriorityQueue Q) (event : EventRef) (s s' : State Q)
    (h : processArrival P event s = some s') :
    ∃ atEntry head afterPop : Event,
      event.read P s.eventQueue = some atEntry ∧ P.top s.eventQueue = some head ∧
        event.read P (P.pop s.eventQueue) = some afterPop ∧
        s' = arrivalState P atEntry.time afterPop s := by
  cases hentry : event.read P s.eventQueue with
  | none => simp [processArrival, hentry] at h
  | some atEntry =>
    cases hhead : P.top s.eventQueue with
    | none => simp [processArrival, hentry, hhead] at h
    | some head =>
      cases hafter : event.read P (P.pop s.eventQueue) with
      | none => simp [processArrival, hentry, hhead, hafter] at h
      | some afterPop =>
        rw [processArrival_eq P event s atEntry head afterPop hentry hhead hafter,
          Option.some.injEq] at h
        exact ⟨atEntry, head, afterPop, rfl, rfl, rfl, h.symm⟩

theorem processArrival_own {Q : Type} (P : PriorityQueue Q) (e head : Event) (s : State Q)
    (hhead : P.top s.eventQueue = some head) :
    processArrival P (EventRef.own e) s = some (arrivalState P e.time e s) :=
  processArrival_eq P (EventRef.own e) s e head e rfl hhead rfl

theorem processArrival_top {Q : Type} (P : PriorityQueue Q) (head next : Event) (s : State Q)
    (hhead : P.top s.eventQueue = some head)
    (hnext : P.top (P.pop s.eventQueue) = some next) :
    processArrival P EventRef.top s = some (arrivalState P head.time next s) :=
  processArrival_eq P EventRef.top s head head next hhead hhead hnext

theorem processDeparture_eq {Q : Type} (P : PriorityQueue Q) (event : EventRef) (s : State Q)
    (atEntry head : Event)
    (hentry : event.read P s.eventQueue = some atEntry)
    (hhead : P.top s.eventQueue = some head) :
    processDeparture P event s = some (departureState P atEntry.time s) := by
  unfold processDeparture departureState
  simp only [hentry, hhead]
  split <;> rfl

theorem processDeparture_inv {Q : Type} (P : PriorityQueue Q) (event : EventRef)
    (s s' : State Q) (h : processDeparture P event s = some s') :
    ∃ atEntry head : Event,
      event.read P s.eventQueue = some atEntry ∧ P.top s.eventQueue = some head ∧
        s' = departureState P atEntry.time s := by
  cases hentry : event.read P s.eventQueue with
  | none => simp [processDeparture, hentry] at h
  | some atEntry =>
    cases hhead : P.top s.eventQueue with
    | none => simp [processDeparture, hentry, hhead] at h
    | some head =>
      rw [processDeparture_eq P event s atEntry head hentry hhead, Option.some.injEq] at h
      exact ⟨atEntry, head, rfl, rfl, h.symm⟩

theorem processDeparture_own {Q : Type} (P : PriorityQueue Q) (e head : Event) (s : State Q)
    (hhead : P.top s.eventQueue = some head) :
    processDeparture P (EventRef.own e) s = some (departureState P e.time s) :=
  processDeparture_eq P (EventRef.own e) s e head rfl hhead

theorem step_arrival {Q : Type} (P : PriorityQueue Q) (s : State Q) (event : Event)
    (htop : P.top s.eventQueue = some event) (hkind : event.kind = EventKind.Arrival) :
    step P s = some (arrivalState P event.time event s) := by
  simp only [step, htop, hkind]
  exact processArrival_own P event event s htop

theorem step_departure {Q : Type} (P : PriorityQueue Q) (s : State Q) (event : Event)
    (htop : P.top s.eventQueue = some event) (hkind : event.kind = EventKind.Departure) :
    step P s = some (departureState P event.time s) := by
  simp only [step, htop, hkind]
  exact processDeparture_own P event event s htop

theorem step_eq_none_of_empty {Q : Type} (P : PriorityQueue Q) (hP : P.Lawful) (s : State Q)
    (h : P.contents s.eventQueue = 0) : step P s = none := by
  unfold step
  rw [(hP.top_eq_none _).2 h]

/-! ## The fields of the returned states -/

theorem arrivalState_of_free {Q : Type} (P : PriorityQueue Q) (t : Int) (e : Event)
    (s : State Q) (hteller : s.tellerAvailable = true) (hline : s.bankLine = []) :
    arrivalState P t e s
      = State.mk
          (P.push (P.pop s.eventQueue)
            (Event.mk EventKind.Departure (intAdd t e.transLength) 0 0))
          [] false := by
  simp [arrivalState, hteller, hline, Event.departure]

theorem arrivalState_of_busy {Q : Type} (P : PriorityQueue Q) (t : Int) (e : Event)
    (s : State Q) (hbusy : s.tellerAvailable = false ∨ s.bankLine ≠ []) :
    arrivalState P t e s
      = State.mk (P.pop s.eventQueue)
          (s.bankLine ++ [Customer.mk e.time e.transLength]) s.tellerAvailable := by
  have hcond : (s.tellerAvailable && s.bankLine.isEmpty) = false := by
    rcases hbusy with h | h
    · simp [h]
    · cases hl : s.bankLine with
      | nil => exact absurd hl h
      | cons c rest => simp
  simp [arrivalState, hcond]

theorem departureState_of_nil {Q : Type} (P : PriorityQueue Q) (t : Int) (s : State Q)
    (hline : s.bankLine = []) :
    departureState P t s = State.mk (P.pop s.eventQueue) [] true := by
  simp [departureState, hline]

theorem departureState_of_cons {Q : Type} (P : PriorityQueue Q) (t : Int) (s : State Q)
    (c : Customer) (rest : List Customer) (hline : s.bankLine = c :: rest) :
    departureState P t s
      = State.mk
          (P.push (P.pop s.eventQueue)
            (Event.mk EventKind.Departure (intAdd t c.transLength) 0 (intSub t c.time)))
          rest s.tellerAvailable := by
  simp [departureState, hline, Event.departureAfterWait]

/-! ## The contracts of the two handlers -/

/-- C1, evaluation at the failing input: the scheduler holds the arrivals
`(time 0, transLength 5)` and `(time 1, transLength 3)`, the teller is
available, the line is empty, and the head is passed as `eventQueue.top()`.
`processArrival` pushes a Departure at time 3, the time of the head plus the
duration of the other arrival, not at time 5. -/
theorem processArrival_top_reads_next_duration :
    processArrival listQueue EventRef.top
        (State.mk [Event.mk EventKind.Arrival 0 5 0, Event.mk EventKind.Arrival 1 3 0] [] true)
      = some (State.mk
          [Event.mk EventKind.Arrival 1 3 0, Event.mk EventKind.Departure 3 0 0] [] false) := by
  decide

/-- C2, evaluation at the failing input: the scheduler holds the arrival
`(time 1, transLength 3)` and a Departure at time 5, the teller is busy, and
the head, the arrival, is passed as `eventQueue.top()`.  `processArrival`
enqueues `Customer(5, 0)`, built from the Departure that is the head after the
pop, not `Customer(1, 3)`. -/
theorem processArrival_top_enqueues_next_head :
    processArrival listQueue EventRef.top
        (State.mk [Event.mk EventKind.Arrival 1 3 0, Event.mk EventKind.Departure 5 0 0]
          [] false)
      = some (State.mk [Event.mk EventKind.Departure 5 0 0] [Customer.mk 5 0] false) := by
  decide

/-- When the event is passed as a pointer of the caller's own, the teller is
available and the line is empty, `processArrival` pops the head and pushes one
Departure at `event.time + event.transLength` (as `int`). -/
theorem processArrival_own_teller_free {Q : Type} (P : PriorityQueue Q) (hP : P.Lawful)
    (s : State Q) (event : Event)
    (hteller : s.tellerAvailable = true) (hline : s.bankLine = [])
    (hhead : P.top s.eventQueue = some event) :
    ∃ s' : State Q,
      processArrival P (EventRef.own event) s = some s' ∧
        P.contents s'.eventQueue
          = Event.mk EventKind.Departure (intAdd event.time event.transLength) 0 0
              ::ₘ (P.contents s.eventQueue).erase event ∧
        s'.tellerAvailable = false ∧ s'.bankLine = [] := by
  refine ⟨_, processArrival_own P event event s hhead, ?_, ?_, ?_⟩
  · rw [arrivalState_of_free P _ _ s hteller hline]
    simp only
    rw [hP.contents_push, hP.contents_pop _ _ hhead]
  · rw [arrivalState_of_free P _ _ s hteller hline]
  · rw [arrivalState_of_free P _ _ s hteller hline]

/-- When the event is passed as a pointer of the caller's own and the teller
is busy or the line is not empty, `processArrival` pops the head and appends
`Customer(event.time, event.transLength)` to the line. -/
theorem processArrival_own_back_of_line {Q : Type} (P : PriorityQueue Q) (hP : P.Lawful)
    (s : State Q) (event : Event)
    (hbusy : s.tellerAvailable = false ∨ s.bankLine ≠ [])
    (hhead : P.top s.eventQueue = some event) :
    ∃ s' : State Q,
      processArrival P (EventRef.own event) s = some s' ∧
        s'.bankLine = s.bankLine ++ [Customer.mk event.time event.transLength] ∧
        P.contents s'.eventQueue = (P.contents s.eventQueue).erase event ∧
        s'.tellerAvailable = s.tellerAvailable := by
  refine ⟨_, processArrival_own P event event s hhead, ?_, ?_, ?_⟩
  · rw [arrivalState_of_busy P _ _ s hbusy]
  · rw [arrivalState_of_busy P _ _ s hbusy]
    simp only
    rw [hP.contents_pop _ _ hhead]
  · rw [arrivalState_of_busy P _ _ s hbusy]

/-- C3: when the bank line is non-empty with front customer `c`, and the event
passed is the head of the scheduler (as a pointer of the caller's own or as
`eventQueue.top()`), `processDeparture` returns, having removed exactly `c`
from the line (the new line is the tail of the old one), pushed exactly one
Departure event with time `event.time + c.transLength` and waited time
`event.time - c.time` (computed as `int`, so equal to the mathematical sum and
difference when these fit), and left the teller flag unchanged. -/
theorem processDeparture_line_moves {Q : Type} (P : PriorityQueue Q) (hP : P.Lawful)
    (s : State Q) (ref : EventRef) (event : Event) (c : Customer) (rest : List Customer)
    (hline : s.bankLine = c :: rest)
    (hhead : P.top s.eventQueue = some event)
    (hread : ref.read P s.eventQueue = some event) :
    ∃ s' : State Q,
      processDeparture P ref s = some s' ∧
        s'.bankLine = s.bankLine.tail ∧
        s'.bankLine = rest ∧
        s'.eventQueue
          = P.push (P.pop s.eventQueue)
              (Event.mk EventKind.Departure (intAdd event.time c.transLength) 0
                (intSub event.time c.time)) ∧
        P.contents s'.eventQueue
          = Event.mk EventKind.Departure (intAdd event.time c.transLength) 0
                (intSub event.time c.time)
              ::ₘ (P.contents s.eventQueue).erase event ∧
        s'.tellerAvailable = s.tellerAvailable ∧
        (InIntRange (event.time + c.transLength) →
          intAdd event.time c.transLength = event.time + c.transLength) ∧
        (InIntRange (event.time - c.time) →
          intSub event.time c.time = event.time - c.time) := by
  refine ⟨_, processDeparture_eq P ref s event event hread hhead, ?_, ?_, ?_, ?_, ?_,
    intAdd_of_inRange _ _, intSub_of_inRange _ _⟩
  · rw [departureState_of_cons P _ s c rest hline, hline]
    rfl
  · rw [departureState_of_cons P _ s c rest hline]
  · rw [departureState_of_cons P _ s c rest hline]
  · rw [departureState_of_cons P _ s c rest hline]
    simp only
    rw [hP.contents_push, hP.contents_pop _ _ hhead]
  · rw [departureState_of_cons P _ s c rest hline]

theorem processDeparture_line_moves_witness :
    listQueue.top [Event.mk EventKind.Departure 5 0 0] = some (Event.mk EventKind.Departure 5 0 0) ∧
      ∃ s' : State (List Event),
        processDeparture listQueue EventRef.top
            (State.mk [Event.mk EventKind.Departure 5 0 0] [Customer.mk 1 3] false) = some s' ∧
          s'.bankLine = [] ∧
          s'.eventQueue = [Event.mk EventKind.Departure 8 0 4] ∧
          s'.tellerAvailable = false :=
  ⟨rfl,
    match processDeparture_line_moves listQueue listQueue_lawful
      (State.mk [Event.mk EventKind.Departure 5 0 0] [Customer.mk 1 3] false)
      EventRef.top (Event.mk EventKind.Departure 5 0 0) (Customer.mk 1 3) [] rfl rfl rfl with
    | ⟨s', h, _, hl, hq, _, ht, _, _⟩ => ⟨s', h, hl, hq, ht⟩⟩

/-- C4: when the bank line is empty and the event passed is the head of the
scheduler (as a pointer of the caller's own or as `eventQueue.top()`),
`processDeparture` returns, having made the teller available, pushed no event
(the scheduler is the old one minus its head) and left the bank line empty. -/
theorem processDeparture_take_a_break {Q : Type} (P : PriorityQueue Q) (hP : P.Lawful)
    (s : State Q) (ref : EventRef) (event : Event)
    (hline : s.bankLine = [])
    (hhead : P.top s.eventQueue = some event)
    (hread : ref.read P s.eventQueue = some event) :
    ∃ s' : State Q,
      processDeparture P ref s = some s' ∧
        s'.tellerAvailable = true ∧
        s'.eventQueue = P.pop s.eventQueue ∧
        P.contents s'.eventQueue = (P.contents s.eventQueue).erase event ∧
        s'.bankLine = [] := by
  refine ⟨_, processDeparture_eq P ref s event event hread hhead, ?_, ?_, ?_, ?_⟩
  · rw [departureState_of_nil P _ s hline]
  · rw [departureState_of_nil P _ s hline]
  · rw [departureState_of_nil P _ s hline]
    simp only
    rw [hP.contents_pop _ _ hhead]
  · rw [departureState_of_nil P _ s hline]

theorem processDeparture_take_a_break_witness :
    listQueue.top [Event.mk EventKind.Departure 8 0 4] = some (Event.mk EventKind.Departure 8 0 4) ∧
      ∃ s' : State (List Event),
        processDeparture listQueue EventRef.top
            (State.mk [Event.mk EventKind.Departure 8 0 4] [] false) = some s' ∧
          s'.tellerAvailable = true ∧
          s'.eventQueue = listQueue.pop [Event.mk EventKind.Departure 8 0 4] ∧
          listQueue.contents s'.eventQueue
            = (listQueue.contents [Event.mk EventKind.Departure 8 0 4]).erase
                (Event.mk EventKind.Departure 8 0 4) ∧
          s'.bankLine = [] :=
  ⟨rfl, processDeparture_take_a_break listQueue listQueue_lawful
    (State.mk [Event.mk EventKind.Departure 8 0 4] [] false)
    EventRef.top (Event.mk EventKind.Departure 8 0 4) rfl rfl rfl⟩

/-! ## The joint invariant -/

theorem arrivalState_jointInvariant {Q : Type} (P : PriorityQueue Q) (t : Int) (e : Event)
    (s : State Q) (h : JointInvariant s) : JointInvariant (arrivalState P t e s) := by
  unfold JointInvariant at *
  unfold arrivalState
  rcases h with h | h
  · simp [h]
  · cases ht : s.tellerAvailable <;> simp [h, ht]

theorem departureState_jointInvariant {Q : Type} (P : PriorityQueue Q) (t : Int)
    (s : State Q) (h : JointInvariant s) : JointInvariant (departureState P t s) := by
  unfold JointInvariant at *
  unfold departureState
  rcases h with h | h
  · cases hl : s.bankLine with
    | nil => simp
    | cons c rest => simp [h]
  · simp [h]

theorem processArrival_jointInvariant {Q : Type} (P : PriorityQueue Q) (event : EventRef)
    (s s' : State Q) (h : JointInvariant s) (hs : processArrival P event s = some s') :
    JointInvariant s' := by
  obtain ⟨atEntry, _, afterPop, _, _, _, heq⟩ := processArrival_inv P event s s' hs
  rw [heq]
  exact arrivalState_jointInvariant P _ _ s h

theorem processDeparture_jointInvariant {Q : Type} (P : PriorityQueue Q) (event : EventRef)
    (s s' : State Q) (h : JointInvariant s) (hs : processDeparture P event s = some s') :
    JointInvariant s' := by
  obtain ⟨atEntry, _, _, _, heq⟩ := processDeparture_inv P event s s' hs
  rw [heq]
  exact departureState_jointInvariant P _ s h

theorem reachable_jointInvariant {Q : Type} (P : PriorityQueue Q) (s : State Q)
    (h : Reachable P s) : JointInvariant s := by
  induction h with
  | init q => exact Or.inr rfl
  | arrival event s s' _ hs ih => exact processArrival_jointInvariant P event s s' ih hs
  | departure event s s' _ hs ih => exact processDeparture_jointInvariant P event s s' ih hs

/-- C5: the joint invariant "teller busy or bank line empty" is preserved by
`processArrival` and by `processDeparture`, for every state satisfying it and
every event, however it is passed; with a non-empty scheduler and the event
passed as a pointer of the caller's own, each handler does return such a
state.  Hence the invariant holds in every state reachable from an initial
state (teller available, line empty) by calls of the two handlers. -/
theorem jointInvariant_preserved {Q : Type} (P : PriorityQueue Q) :
    (∀ (event : EventRef) (s s' : State Q), JointInvariant s →
        processArrival P event s = some s' → JointInvariant s') ∧
      (∀ (event : EventRef) (s s' : State Q), JointInvariant s →
        processDeparture P event s = some s' → JointInvariant s') ∧
      (∀ (event head : Event) (s : State Q), JointInvariant s →
        P.top s.eventQueue = some head →
        ∃ s' : State Q, processArrival P (EventRef.own event) s = some s' ∧
          JointInvariant s') ∧
      (∀ (event head : Event) (s : State Q), JointInvariant s →
        P.top s.eventQueue = some head →
        ∃ s' : State Q, processDeparture P (EventRef.own event) s = some s' ∧
          JointInvariant s') ∧
      (∀ s : State Q, Reachable P s → JointInvariant s) :=
  ⟨processArrival_jointInvariant P, processDeparture_jointInvariant P,
    fun event head s h hhead =>
      ⟨_, processArrival_own P event head s hhead, arrivalState_jointInvariant P _ _ s h⟩,
    fun event head s h hhead =>
      ⟨_, processDeparture_own P event head s hhead, departureState_jointInvariant P _ s h⟩,
    reachable_jointInvariant P⟩

/-! ## The server-state invariant -/

theorem countP_erase_of_neg (p : Event → Prop) [DecidablePred p] (m : Multiset Event)
    (e : Event) (he : e ∈ m) (hp : ¬ p e) : (m.erase e).countP p = m.countP p := by
  conv_rhs => rw [← Multiset.cons_erase he]
  rw [Multiset.countP_cons_of_neg _ hp]

theorem countP_erase_of_pos (p : Event → Prop) [DecidablePred p] (m : Multiset Event)
    (e : Event) (he : e ∈ m) (hp : p e) : (m.erase e).countP p + 1 = m.countP p := by
  conv_rhs => rw [← Multiset.cons_erase he]
  rw [Multiset.countP_cons_of_pos _ hp]

theorem serverInvariant_iff {Q : Type} (P : PriorityQueue Q) (s : State Q) :
    ServerInvariant P s ↔
      (s.tellerAvailable = false ↔ 0 < departuresPending P s) ∧ departuresPending P s ≤ 1 := by
  unfold ServerInvariant departuresPending
  rw [Multiset.countP_pos]

theorem departuresPending_arrivalState {Q : Type} (P : PriorityQueue Q) (hP : P.Lawful)
    (s : State Q) (head : Event) (t : Int) (e : Event)
    (hhead : P.top s.eventQueue = some head)
    (hkind : head.kind = EventKind.Arrival) :
    departuresPending P (arrivalState P t e s)
      = if s.tellerAvailable && s.bankLine.isEmpty then departuresPending P s + 1
        else departuresPending P s := by
  have hmem := hP.top_mem _ _ hhead
  have hne : ¬ head.kind = EventKind.Departure := by rw [hkind]; decide
  have hpop : (P.contents (P.pop s.eventQueue)).countP (fun e => e.kind = EventKind.Departure)
      = (P.contents s.eventQueue).countP (fun e => e.kind = EventKind.Departure) := by
    rw [hP.contents_pop _ _ hhead]
    exact countP_erase_of_neg _ _ _ hmem hne
  unfold departuresPending arrivalState
  by_cases hc : (s.tellerAvailable && s.bankLine.isEmpty) = true
  · simp only [hc, if_true]
    rw [hP.contents_push, Multiset.countP_cons_of_pos _ (by rfl), hpop]
  · rw [if_neg hc, if_neg hc]
    exact hpop

theorem departuresPending_departureState {Q : Type} (P : PriorityQueue Q) (hP : P.Lawful)
    (s : State Q) (head : Event) (t : Int)
    (hhead : P.top s.eventQueue = some head)
    (hkind : head.kind = EventKind.Departure) :
    departuresPending P (departureState P t s) + 1
      = if s.bankLine = [] then departuresPending P s else departuresPending P s + 1 := by
  have hmem := hP.top_mem _ _ hhead
  have hpop : (P.contents (P.pop s.eventQueue)).countP (fun e => e.kind = EventKind.Departure) + 1
      = (P.contents s.eventQueue).countP (fun e => e.kind = EventKind.Departure) := by
    rw [hP.contents_pop _ _ hhead]
    exact countP_erase_of_pos (fun e => e.kind = EventKind.Departure) _ _ hmem hkind
  unfold departuresPending departureState
  cases hl : s.bankLine with
  | nil =>
    simp only [if_true]
    exact hpop
  | cons c rest =>
    simp only [reduceCtorEq, if_false]
    rw [hP.contents_push, Multiset.countP_cons_of_pos _ (by rfl), hpop]

theorem arrivalState_serverInvariant {Q : Type} (P : PriorityQueue Q) (hP : P.Lawful)
    (s : State Q) (head : Event) (t : Int) (e : Event) (hinv : ServerInvariant P s)
    (hhead : P.top s.eventQueue = some head) (hkind : head.kind = EventKind.Arrival) :
    ServerInvariant P (arrivalState P t e s) := by
  rw [serverInvariant_iff] at hinv ⊢
  rw [departuresPending_arrivalState P hP s head t e hhead hkind]
  obtain ⟨hiff, hle⟩ := hinv
  by_cases hc : (s.tellerAvailable && s.bankLine.isEmpty) = true
  · have ht : s.tellerAvailable = true := by
      cases h : s.tellerAvailable
      · rw [h] at hc; simp at hc
      · rfl
    have h0 : departuresPending P s = 0 := by
      by_contra hne
      have := hiff.2 (Nat.pos_of_ne_zero hne)
      rw [ht] at this
      exact Bool.noConfusion this
    simp only [hc, if_true]
    refine ⟨?_, by omega⟩
    simp [arrivalState, hc]
  · rw [if_neg hc]
    refine ⟨?_, hle⟩
    have : (arrivalState P t e s).tellerAvailable = s.tellerAvailable := by
      unfold arrivalState
      rw [if_neg hc]
    rw [this]
    exact hiff

theorem departureState_serverInvariant {Q : Type} (P : PriorityQueue Q) (hP : P.Lawful)
    (s : State Q) (head : Event) (t : Int) (hinv : ServerInvariant P s)
    (hhead : P.top s.eventQueue = some head) (hkind : head.kind = EventKind.Departure) :
    ServerInvariant P (departureState P t s) := by
  have hpending : ∃ e ∈ P.contents s.eventQueue, e.kind = EventKind.Departure :=
    ⟨head, hP.top_mem _ _ hhead, hkind⟩
  have hbusy : s.tellerAvailable = false := hinv.1.2 hpending
  rw [serverInvariant_iff] at hinv ⊢
  have hcount := departuresPending_departureState P hP s head t hhead hkind
  obtain ⟨hiff, hle⟩ := hinv
  have hpos : 0 < departuresPending P s := hiff.1 hbusy
  cases hl : s.bankLine with
  | nil =>
    simp only [hl, if_true] at hcount
    have ht : (departureState P t s).tellerAvailable = true := by
      simp [departureState, hl]
    rw [ht]
    refine ⟨?_, by omega⟩
    constructor
    · intro h; exact Bool.noConfusion h
    · intro h; omega
  | cons c rest =>
    simp only [hl, reduceCtorEq, if_false] at hcount
    have ht : (departureState P t s).tellerAvailable = false := by
      simp [departureState, hl, hbusy]
    rw [ht]
    refine ⟨?_, by omega⟩
    constructor
    · intro _; omega
    · intro _; rfl

theorem processArrival_serverInvariant {Q : Type} (P : PriorityQueue Q) (hP : P.Lawful)
    (s : State Q) (ref : EventRef) (event : Event) (s' : State Q)
    (hinv : ServerInvariant P s) (hhead : P.top s.eventQueue = some event)
    (_hread : ref.read P s.eventQueue = some event)
    (hkind : event.kind = EventKind.Arrival) (hs : processArrival P ref s = some s') :
    ServerInvariant P s' := by
  obtain ⟨atEntry, _, afterPop, _, _, _, heq⟩ := processArrival_inv P ref s s' hs
  rw [heq]
  exact arrivalState_serverInvariant P hP s event _ _ hinv hhead hkind

theorem processDeparture_serverInvariant {Q : Type} (P : PriorityQueue Q) (hP : P.Lawful)
    (s : State Q) (ref : EventRef) (event : Event) (s' : State Q)
    (hinv : ServerInvariant P s) (hhead : P.top s.eventQueue = some event)
    (_hread : ref.read P s.eventQueue = some event)
    (hkind : event.kind = EventKind.Departure) (hs : processDeparture P ref s = some s') :
    ServerInvariant P s' := by
  obtain ⟨atEntry, _, _, _, heq⟩ := processDeparture_inv P ref s s' hs
  rw [heq]
  exact departureState_serverInvariant P hP s event _ hinv hhead hkind

theorem seeded_serverInvariant {Q : Type} (P : PriorityQueue Q) (s : State Q)
    (h : Seeded P s) : ServerInvariant P s := by
  obtain ⟨ht, _, hall⟩ := h
  have hnone : ¬ ∃ e ∈ P.contents s.eventQueue, e.kind = EventKind.Departure := by
    rintro ⟨e, he, hk⟩
    rw [hall e he] at hk
    exact EventKind.noConfusion hk
  rw [serverInvariant_iff]
  have h0 : departuresPending P s = 0 := by
    by_contra hne
    exact hnone (Multiset.countP_pos.1 (Nat.pos_of_ne_zero hne))
  rw [h0, ht]
  simp

theorem step_cases {Q : Type} (P : PriorityQueue Q) (s s' : State Q)
    (hstep : step P s = some s') :
    ∃ event : Event, P.top s.eventQueue = some event ∧
      ((event.kind = EventKind.Arrival ∧ s' = arrivalState P event.time event s) ∨
        (event.kind = EventKind.Departure ∧ s' = departureState P event.time s)) := by
  cases htop : P.top s.eventQueue with
  | none => simp [step, htop] at hstep
  | some event =>
    refine ⟨event, rfl, ?_⟩
    cases hk : event.kind with
    | Arrival =>
      rw [step_arrival P s event htop hk, Option.some.injEq] at hstep
      exact Or.inl ⟨rfl, hstep.symm⟩
    | Departure =>
      rw [step_departure P s event htop hk, Option.some.injEq] at hstep
      exact Or.inr ⟨rfl, hstep.symm⟩

theorem step_serverInvariant {Q : Type} (P : PriorityQueue Q) (hP : P.Lawful)
    (s s' : State Q) (hinv : ServerInvariant P s) (hstep : step P s = some s') :
    ServerInvariant P s' := by
  obtain ⟨event, htop, h | h⟩ := step_cases P s s' hstep
  · rw [h.2]
    exact arrivalState_serverInvariant P hP s event _ _ hinv htop h.1
  · rw [h.2]
    exact departureState_serverInvariant P hP s event _ hinv htop h.1

theorem steps_serverInvariant {Q : Type} (P : PriorityQueue Q) (hP : P.Lawful)
    (s s' : State Q) (hinv : ServerInvariant P s) (hsteps : Steps P s s') :
    ServerInvariant P s' := by
  induction hsteps with
  | refl => exact hinv
  | tail s1 s2 _ hstep ih => exact step_serverInvariant P hP s1 s2 ih hstep

/-- C6: the server-state invariant "the teller is busy if and only if a
Departure event is pending in the scheduler, and at most one Departure event
is pending" is preserved by `processArrival` when the event passed is the head
of the scheduler and an Arrival, and by `processDeparture` when the event
passed is the head of the scheduler and a Departure, whether the head is
passed as a pointer of the caller's own or as `eventQueue.top()`; hence it
holds in every state the driving loop reaches from a teller that is
available, an empty line and a scheduler holding Arrival events only. -/
theorem serverInvariant_preserved {Q : Type} (P : PriorityQueue Q) (hP : P.Lawful) :
    (∀ (s : State Q) (ref : EventRef) (event : Event) (s' : State Q),
        ServerInvariant P s → P.top s.eventQueue = some event →
        ref.read P s.eventQueue = some event → event.kind = EventKind.Arrival →
        processArrival P ref s = some s' → ServerInvariant P s') ∧
      (∀ (s : State Q) (ref : EventRef) (event : Event) (s' : State Q),
        ServerInvariant P s → P.top s.eventQueue = some event →
        ref.read P s.eventQueue = some event → event.kind = EventKind.Departure →
        processDeparture P ref s = some s' → ServerInvariant P s') ∧
      (∀ (s : State Q) (event : Event), ServerInvariant P s →
        P.top s.eventQueue = some event → event.kind = EventKind.Arrival →
        ∃ s' : State Q, processArrival P (EventRef.own event) s = some s' ∧
          ServerInvariant P s') ∧
      (∀ (s : State Q) (ref : EventRef) (event : Event), ServerInvariant P s →
        P.top s.eventQueue = some event → ref.read P s.eventQueue = some event →
        event.kind = EventKind.Departure →
        ∃ s' : State Q, processDeparture P ref s = some s' ∧ ServerInvariant P s') ∧
      (∀ s s' : State Q, Seeded P s → Steps P s s' → ServerInvariant P s') :=
  ⟨processArrival_serverInvariant P hP, processDeparture_serverInvariant P hP,
    fun s event hinv hhead hkind =>
      ⟨_, processArrival_own P event event s hhead,
        arrivalState_serverInvariant P hP s event _ _ hinv hhead hkind⟩,
    fun s ref event hinv hhead hread hkind =>
      ⟨_, processDeparture_eq P ref s event event hread hhead,
        departureState_serverInvariant P hP s event _ hinv hhead hkind⟩,
    fun s s' hseed hsteps =>
      steps_serverInvariant P hP s s' (seeded_serverInvariant P s hseed) hsteps⟩

theorem serverInvariant_preserved_witness :
    listQueue.Lawful ∧
      ∃ s' : State (List Event),
        processArrival listQueue (EventRef.own (Event.mk EventKind.Arrival 0 5 0))
            (State.mk [Event.mk EventKind.Arrival 0 5 0] [] true) = some s' ∧
          ServerInvariant listQueue s' :=
  ⟨listQueue_lawful,
    (serverInvariant_preserved listQueue listQueue_lawful).2.2.1
      (State.mk [Event.mk EventKind.Arrival 0 5 0] [] true)
      (Event.mk EventKind.Arrival 0 5 0)
      (seeded_serverInvariant listQueue _ ⟨rfl, rfl, by
        intro e he
        have : e = Event.mk EventKind.Arrival 0 5 0 := by simpa [listQueue] using he
        rw [this]⟩)
      rfl rfl⟩

/-! ## Runs of the driving loop -/

theorem steps_head {Q : Type} (P : PriorityQueue Q) (s s' s'' : State Q)
    (hstep : step P s = some s') (hsteps : Steps P s' s'') : Steps P s s'' := by
  induction hsteps with
  | refl => exact Steps.tail s s s' (Steps.refl s) hstep
  | tail s1 s2 _ hstep2 ih => exact Steps.tail s s1 s2 ih hstep2

theorem stepN_tail {Q : Type} (P : PriorityQueue Q) (n : Nat) (s s' s'' : State Q)
    (h : stepN P n s = some s') (hstep : step P s' = some s'') :
    stepN P (n + 1) s = some s'' := by
  induction n generalizing s with
  | zero =>
    simp only [stepN, Option.some.injEq] at h
    subst h
    simp [stepN, hstep]
  | succ n ih =>
    simp only [stepN] at h
    cases h1 : step P s with
    | none => rw [h1] at h; simp at h
    | some s1 =>
      rw [h1] at h
      simp only [Option.some_bind] at h
      have := ih s1 h
      rw [stepN, h1]
      exact this

theorem steps_stepN {Q : Type} (P : PriorityQueue Q) (s s' : State Q)
    (hsteps : Steps P s s') : ∃ n : Nat, stepN P n s = some s' := by
  induction hsteps with
  | refl => exact ⟨0, rfl⟩
  | tail s1 s2 _ hstep ih =>
    obtain ⟨n, hn⟩ := ih
    exact ⟨n + 1, stepN_tail P n s s1 s2 hn hstep⟩

theorem stepN_none_succ {Q : Type} (P : PriorityQueue Q) (k : Nat) (s : State Q)
    (h : stepN P k s = none) : stepN P (k + 1) s = none := by
  induction k generalizing s with
  | zero => simp [stepN] at h
  | succ k ih =>
    rw [stepN] at h ⊢
    cases h1 : step P s with
    | none => rfl
    | some s1 =>
      rw [h1] at h
      simp only [Option.some_bind] at h ⊢
      exact ih s1 h

theorem stepN_none_of_le {Q : Type} (P : PriorityQueue Q) (k n : Nat) (s : State Q)
    (h : stepN P k s = none) (hle : k ≤ n) : stepN P n s = none := by
  induction n with
  | zero =>
    have : k = 0 := by omega
    subst this
    exact h
  | succ n ih =>
    by_cases hk : k = n + 1
    · subst hk; exact h
    · exact stepN_none_succ P n s (ih (by omega))

/-! ## Waited times -/

theorem arrivalState_waitInvariant {Q : Type} (P : PriorityQueue Q) (hP : P.Lawful)
    (hmin : P.MinTime) (s : State Q) (event : Event) (hinv : WaitInvariant P s)
    (hhead : P.top s.eventQueue = some event) (hkind : event.kind = EventKind.Arrival) :
    WaitInvariant P (arrivalState P event.time event s) := by
  obtain ⟨h1, h2, h3, h4⟩ := hinv
  have hmem := hP.top_mem _ _ hhead
  have hpop := hP.contents_pop _ _ hhead
  by_cases hc : (s.tellerAvailable && s.bankLine.isEmpty) = true
  · have hl : s.bankLine = [] := by
      cases hl : s.bankLine with
      | nil => rfl
      | cons c rest => rw [hl] at hc; simp at hc
    have hq : P.contents (arrivalState P event.time event s).eventQueue
        = Event.departure (intAdd event.time event.transLength)
            ::ₘ (P.contents s.eventQueue).erase event := by
      simp [arrivalState, hc, hP.contents_push, hpop]
    have hline : (arrivalState P event.time event s).bankLine = [] := by
      unfold arrivalState
      simp only [hc, if_true]
      exact hl
    refine ⟨?_, ?_, ?_, ?_⟩
    · rw [hline]; intro c hcm; simp at hcm
    · rw [hline]; intro c hcm; simp at hcm
    · rw [hq]
      intro x hx hk
      rcases Multiset.mem_cons.1 hx with hxe | hxe
      · rw [hxe] at hk; exact EventKind.noConfusion hk
      · exact h3 x (Multiset.mem_of_mem_erase hxe) hk
    · rw [hq]
      intro x hx hk
      rcases Multiset.mem_cons.1 hx with hxe | hxe
      · rw [hxe]; exact le_refl _
      · exact h4 x (Multiset.mem_of_mem_erase hxe) hk
  · have hq : P.contents (arrivalState P event.time event s).eventQueue
        = (P.contents s.eventQueue).erase event := by
      unfold arrivalState
      rw [if_neg hc]
      exact hpop
    have hline : (arrivalState P event.time event s).bankLine
        = s.bankLine ++ [Customer.mk event.time event.transLength] := by
      unfold arrivalState
      rw [if_neg hc]
    refine ⟨?_, ?_, ?_, ?_⟩
    · rw [hline, hq]
      intro c hcm x hx
      have hx2 := Multiset.mem_of_mem_erase hx
      rcases List.mem_append.1 hcm with hcl | hcn
      · exact h1 c hcl x hx2
      · rw [List.mem_singleton] at hcn
        rw [hcn]
        exact hmin _ _ hhead x hx2
    · rw [hline]
      intro c hcm
      rcases List.mem_append.1 hcm with hcl | hcn
      · exact h2 c hcl
      · rw [List.mem_singleton] at hcn
        rw [hcn]
        exact h3 event hmem hkind
    · rw [hq]
      intro x hx hk
      exact h3 x (Multiset.mem_of_mem_erase hx) hk
    · rw [hq]
      intro x hx hk
      exact h4 x (Multiset.mem_of_mem_erase hx) hk

theorem departureState_waitInvariant {Q : Type} (P : PriorityQueue Q) (hP : P.Lawful)
    (s : State Q) (event : Event) (hinv : WaitInvariant P s)
    (hhead : P.top s.eventQueue = some event)
    (hrange : ∀ (c : Customer) (rest : List Customer), s.bankLine = c :: rest →
      InIntRange (event.time + c.transLength) ∧ InIntRange (event.time - c.time)) :
    WaitInvariant P (departureState P event.time s) := by
  obtain ⟨h1, h2, h3, h4⟩ := hinv
  have hmem := hP.top_mem _ _ hhead
  have hpop := hP.contents_pop _ _ hhead
  cases hl : s.bankLine with
  | nil =>
    rw [departureState_of_nil P _ s hl]
    unfold WaitInvariant
    simp only [hpop]
    refine ⟨?_, ?_, ?_, ?_⟩
    · intro c hcm; simp at hcm
    · intro c hcm; simp at hcm
    · intro x hx hk
      exact h3 x (Multiset.mem_of_mem_erase hx) hk
    · intro x hx hk
      exact h4 x (Multiset.mem_of_mem_erase hx) hk
  | cons c rest =>
    obtain ⟨hr1, hr2⟩ := hrange c rest hl
    have hcl : c ∈ s.bankLine := by rw [hl]; exact List.mem_cons_self _ _
    have hrest : ∀ d ∈ rest, d ∈ s.bankLine := by
      intro d hd; rw [hl]; exact List.mem_cons_of_mem _ hd
    have hc0 := h2 c hcl
    have hct := h1 c hcl event hmem
    rw [departureState_of_cons P _ s c rest hl, intAdd_of_inRange _ _ hr1,
      intSub_of_inRange _ _ hr2]
    unfold WaitInvariant
    simp only [hP.contents_push, hpop]
    refine ⟨?_, ?_, ?_, ?_⟩
    · intro d hd x hx
      rcases Multiset.mem_cons.1 hx with hxe | hxe
      · rw [hxe]
        have := h1 d (hrest d hd) event hmem
        simp only
        omega
      · exact h1 d (hrest d hd) x (Multiset.mem_of_mem_erase hxe)
    · intro d hd
      exact h2 d (hrest d hd)
    · intro x hx hk
      rcases Multiset.mem_cons.1 hx with hxe | hxe
      · rw [hxe] at hk; exact EventKind.noConfusion hk
      · exact h3 x (Multiset.mem_of_mem_erase hxe) hk
    · intro x hx hk
      rcases Multiset.mem_cons.1 hx with hxe | hxe
      · rw [hxe]
        simp only
        omega
      · exact h4 x (Multiset.mem_of_mem_erase hxe) hk

theorem step_waitInvariant {Q : Type} (P : PriorityQueue Q) (hP : P.Lawful)
    (hmin : P.MinTime) (s s' : State Q) (hinv : WaitInvariant P s)
    (hsafe : NoOverflowAt P s) (hstep : step P s = some s') : WaitInvariant P s' := by
  obtain ⟨event, htop, h | h⟩ := step_cases P s s' hstep
  · rw [h.2]
    exact arrivalState_waitInvariant P hP hmin s event hinv htop h.1
  · rw [h.2]
    exact departureState_waitInvariant P hP s event hinv htop ((hsafe event htop).2 h.1)

theorem steps_waitInvariant {Q : Type} (P : PriorityQueue Q) (hP : P.Lawful)
    (hmin : P.MinTime) (s s' : State Q) (hinv : WaitInvariant P s)
    (hsafe : ∀ x : State Q, Steps P s x → NoOverflowAt P x)
    (hsteps : Steps P s s') : WaitInvariant P s' := by
  induction hsteps with
  | refl => exact hinv
  | tail s1 s2 hsteps1 hstep ih =>
    exact step_waitInvariant P hP hmin s1 s2 ih (hsafe s1 hsteps1) hstep

theorem seeded_waitInvariant {Q : Type} (P : PriorityQueue Q) (s : State Q)
    (hseed : Seeded P s)
    (hlen : ∀ e ∈ P.contents s.eventQueue, 0 ≤ e.transLength) : WaitInvariant P s := by
  obtain ⟨_, hl, hall⟩ := hseed
  refine ⟨?_, ?_, ?_, ?_⟩
  · rw [hl]; intro c hcm; simp at hcm
  · rw [hl]; intro c hcm; simp at hcm
  · intro x hx _; exact hlen x hx
  · intro x hx hk
    rw [hall x hx] at hk
    exact EventKind.noConfusion hk

theorem totalWaitTime_nonneg {Q : Type} (P : PriorityQueue Q) (hP : P.Lawful)
    (hmin : P.MinTime) (n : Nat) (s : State Q) (hinv : WaitInvariant P s)
    (hsafe : ∀ x : State Q, Steps P s x → NoOverflowAt P x) :
    0 ≤ totalWaitTime P n s := by
  induction n generalizing s with
  | zero => simp [totalWaitTime]
  | succ n ih =>
    unfold totalWaitTime
    cases htop : P.top s.eventQueue with
    | none => simp
    | some event =>
      cases hstep : step P s with
      | none => simp
      | some s' =>
        simp only
        have hrec := ih s'
          (step_waitInvariant P hP hmin s s' hinv (hsafe s (Steps.refl s)) hstep)
          (fun x hx => hsafe x (steps_head P s s' x hstep hx))
        by_cases hk : event.kind = EventKind.Departure
        · have := hinv.2.2.2 event (hP.top_mem _ _ htop) hk
          simp only [hk, if_true]
          omega
        · simp only [hk, if_false]
          omega

theorem twoArrivals_noOverflow :
    ∀ s : State (List Event),
      Steps listQueue
        (State.mk [Event.mk EventKind.Arrival 0 5 0, Event.mk EventKind.Arrival 1 3 0] [] true)
        s →
      NoOverflowAt listQueue s := by
  intro s hs
  obtain ⟨n, hn⟩ := steps_stepN listQueue _ s hs
  have h5 : stepN listQueue 5
      (State.mk [Event.mk EventKind.Arrival 0 5 0, Event.mk EventKind.Arrival 1 3 0] [] true)
      = none := by decide
  have hlt : n < 5 := by
    by_contra hge
    rw [stepN_none_of_le listQueue 5 n _ h5 (by omega)] at hn
    exact Option.noConfusion hn
  have h0 : stepN listQueue 0
      (State.mk [Event.mk EventKind.Arrival 0 5 0, Event.mk EventKind.Arrival 1 3 0] [] true)
      = some (State.mk [Event.mk EventKind.Arrival 0 5 0, Event.mk EventKind.Arrival 1 3 0]
          [] true) := by decide
  have h1 : stepN listQueue 1
      (State.mk [Event.mk EventKind.Arrival 0 5 0, Event.mk EventKind.Arrival 1 3 0] [] true)
      = some (State.mk [Event.mk EventKind.Arrival 1 3 0, Event.mk EventKind.Departure 5 0 0]
          [] false) := by decide
  have h2 : stepN listQueue 2
      (State.mk [Event.mk EventKind.Arrival 0 5 0, Event.mk EventKind.Arrival 1 3 0] [] true)
      = some (State.mk [Event.mk EventKind.Departure 5 0 0] [Customer.mk 1 3] false) := by
    decide
  have h3 : stepN listQueue 3
      (State.mk [Event.mk EventKind.Arrival 0 5 0, Event.mk EventKind.Arrival 1 3 0] [] true)
      = some (State.mk [Event.mk EventKind.Departure 8 0 4] [] false) := by decide
  have h4 : stepN listQueue 4
      (State.mk [Event.mk EventKind.Arrival 0 5 0, Event.mk EventKind.Arrival 1 3 0] [] true)
      = some (State.mk [] [] true) := by decide
  intro event htop
  interval_cases n
  · rw [h0, Option.some.injEq] at hn
    subst hn
    have he : event = Event.mk EventKind.Arrival 0 5 0 := by
      simpa [listQueue, minEvent] using htop.symm
    subst he
    exact ⟨fun _ _ _ => by decide, fun h => by simp at h⟩
  · rw [h1, Option.some.injEq] at hn
    subst hn
    have he : event = Event.mk EventKind.Arrival 1 3 0 := by
      simpa [listQueue, minEvent] using htop.symm
    subst he
    exact ⟨fun _ _ _ => by decide, fun h => by simp at h⟩
  · rw [h2, Option.some.injEq] at hn
    subst hn
    have he : event = Event.mk EventKind.Departure 5 0 0 := by
      simpa [listQueue, minEvent] using htop.symm
    subst he
    refine ⟨fun h => by simp at h, fun _ c rest hl => ?_⟩
    simp only [List.cons.injEq] at hl
    obtain ⟨hc, _⟩ := hl
    subst hc
    decide
  · rw [h3, Option.some.injEq] at hn
    subst hn
    have he : event = Event.mk EventKind.Departure 8 0 4 := by
      simpa [listQueue, minEvent] using htop.symm
    subst he
    exact ⟨fun h => by simp at h, fun _ c rest hl => by simp at hl⟩
  · rw [h4, Option.some.injEq] at hn
    subst hn
    simp [listQueue, minEvent] at htop

/-- C8, counterexample: the seed holds the arrivals `(time 0, transLength
INT_MAX)`, `(time 1, transLength 3)` and `(time 2, transLength 1)`, all with
non-negative times and durations; the teller is available and the line empty.
The departure time `INT_MAX + 3` of the second customer wraps around to a
negative time, so after five steps of the driving loop the scheduler holds a
Departure event pushed by `processDeparture` that carries the waited time
`-2147483648`, and the total wait time over the six steps of the run is
`-2`. -/
theorem waitAccumulated_negative_after_overflow :
    (∀ e ∈ [Event.mk EventKind.Arrival 0 2147483647 0, Event.mk EventKind.Arrival 1 3 0,
          Event.mk EventKind.Arrival 2 1 0],
        e.kind = EventKind.Arrival ∧ 0 ≤ e.time ∧ 0 ≤ e.transLength) ∧
      stepN listQueue 5
          (State.mk [Event.mk EventKind.Arrival 0 2147483647 0, Event.mk EventKind.Arrival 1 3 0,
            Event.mk EventKind.Arrival 2 1 0] [] true)
        = some (State.mk [Event.mk EventKind.Departure (-2147483645) 0 (-2147483648)]
            [] false) ∧
      totalWaitTime listQueue 6
          (State.mk [Event.mk EventKind.Arrival 0 2147483647 0, Event.mk EventKind.Arrival 1 3 0,
            Event.mk EventKind.Arrival 2 1 0] [] true)
        = -2 := by
  decide

/-- C8, amended: in every run of the driving loop that starts with the teller
available, the line empty and a scheduler holding only Arrival events with
non-negative times and non-negative service durations, and in which no
addition or subtraction of the handlers overflows `int`, whatever way the
scheduler breaks ties between events of equal time, every Departure event that
`processDeparture` pushes carries a non-negative waited time, every Departure
event pending in the scheduler carries a non-negative waited time, and the
total wait time accumulated over any number of steps is non-negative. -/
theorem waitAccumulated_nonneg {Q : Type} (P : PriorityQueue Q) (hP : P.Lawful)
    (hmin : P.MinTime) (s₀ : State Q) (hseed : Seeded P s₀)
    (_htime : ∀ e ∈ P.contents s₀.eventQueue, 0 ≤ e.time)
    (hlen : ∀ e ∈ P.contents s₀.eventQueue, 0 ≤ e.transLength)
    (hsafe : ∀ s : State Q, Steps P s₀ s → NoOverflowAt P s) :
    (∀ (s : State Q) (event : Event) (c : Customer) (rest : List Customer),
        Steps P s₀ s → P.top s.eventQueue = some event →
        event.kind = EventKind.Departure → s.bankLine = c :: rest →
        ∃ (s' : State Q) (pushed : Event),
          processDeparture P (EventRef.own event) s = some s' ∧
            s'.eventQueue = P.push (P.pop s.eventQueue) pushed ∧
            pushed.kind = EventKind.Departure ∧
            pushed.waitAccumulated = event.time - c.time ∧
            0 ≤ pushed.waitAccumulated) ∧
      (∀ s : State Q, Steps P s₀ s →
        ∀ e ∈ P.contents s.eventQueue, e.kind = EventKind.Departure →
          0 ≤ e.waitAccumulated) ∧
      (∀ n : Nat, 0 ≤ totalWaitTime P n s₀) := by
  have h0 := seeded_waitInvariant P s₀ hseed hlen
  refine ⟨?_, ?_, ?_⟩
  · intro s event c rest hsteps hhead hkind hline
    have hinv := steps_waitInvariant P hP hmin s₀ s h0 hsafe hsteps
    have hct := hinv.1 c (by rw [hline]; exact List.mem_cons_self _ _) event
      (hP.top_mem _ _ hhead)
    have hr := ((hsafe s hsteps) event hhead).2 hkind c rest hline
    refine ⟨_, Event.mk EventKind.Departure (intAdd event.time c.transLength) 0
      (intSub event.time c.time), processDeparture_own P event event s hhead, ?_, rfl, ?_, ?_⟩
    · rw [departureState_of_cons P _ s c rest hline]
    · exact intSub_of_inRange _ _ hr.2
    · simp only
      rw [intSub_of_inRange _ _ hr.2]
      omega
  · intro s hsteps
    exact (steps_waitInvariant P hP hmin s₀ s h0 hsafe hsteps).2.2.2
  · intro n
    exact totalWaitTime_nonneg P hP hmin n s₀ h0 hsafe

theorem waitAccumulated_nonneg_witness :
    listQueue.Lawful ∧ listQueue.MinTime ∧
      Seeded listQueue
        (State.mk [Event.mk EventKind.Arrival 0 5 0, Event.mk EventKind.Arrival 1 3 0] [] true) ∧
      totalWaitTime listQueue 4
        (State.mk [Event.mk EventKind.Arrival 0 5 0, Event.mk EventKind.Arrival 1 3 0] [] true)
        = 4 ∧
      0 ≤ totalWaitTime listQueue 4
        (State.mk [Event.mk EventKind.Arrival 0 5 0, Event.mk EventKind.Arrival 1 3 0] [] true) :=
  have hmem : ∀ e ∈ listQueue.contents
      [Event.mk EventKind.Arrival 0 5 0, Event.mk EventKind.Arrival 1 3 0],
      e = Event.mk EventKind.Arrival 0 5 0 ∨ e = Event.mk EventKind.Arrival 1 3 0 := by
    intro e he
    simpa [listQueue] using he
  have hseed : Seeded listQueue
      (State.mk [Event.mk EventKind.Arrival 0 5 0, Event.mk EventKind.Arrival 1 3 0] [] true) :=
    ⟨rfl, rfl, fun e he => by rcases hmem e he with h | h <;> rw [h]⟩
  ⟨listQueue_lawful, listQueue_minTime, hseed, by decide,
    (waitAccumulated_nonneg listQueue listQueue_lawful listQueue_minTime
      (State.mk [Event.mk EventKind.Arrival 0 5 0, Event.mk EventKind.Arrival 1 3 0] [] true)
      hseed
      (fun e he => by rcases hmem e he with h | h <;> (subst h; decide))
      (fun e he => by rcases hmem e he with h | h <;> (subst h; decide))
      twoArrivals_noOverflow).2.2 4⟩

/-! ## The handlers have no error path -/

/-- With an empty scheduler the behaviour of both handlers is undefined:
`pop()` is called on an empty queue. -/
theorem handlers_undefined_of_empty {Q : Type} (P : PriorityQueue Q) (event : EventRef)
    (s : State Q) (hempty : P.top s.eventQueue = none) :
    processArrival P event s = none ∧ processDeparture P event s = none := by
  constructor
  · cases hentry : event.read P s.eventQueue with
    | none => simp [processArrival, hentry]
    | some atEntry => simp [processArrival, hentry, hempty]
  · cases hentry : event.read P s.eventQueue with
    | none => simp [processDeparture, hentry]
    | some atEntry => simp [processDeparture, hentry, hempty]

/-- C7, counterexample: with the Departure event at time 0 at the head of the
scheduler and a front customer who arrived at time 5, `processDeparture`
returns a state whose scheduler holds a Departure event carrying the waited
time -5. -/
theorem processDeparture_pushes_negative_wait :
    (0 : Int) < (Customer.mk 5 3).time ∧
      processDeparture listQueue (EventRef.own (Event.mk EventKind.Departure 0 0 0))
          (State.mk [Event.mk EventKind.Departure 0 0 0] [Customer.mk 5 3] false)
        = some (State.mk [Event.mk EventKind.Departure 3 0 (-5)] [] false) := by
  decide

/-- C7, amended: `processDeparture` does not compare the event time with the
arrival time of the front customer and has no error path.  For every
departure event that is the head of the scheduler and every state whose bank
line is non-empty with a front customer `c` such that `event.time < c.time`,
when `event.time - c.time` does not overflow `int`, the call returns a state:
`c` has left the line and the scheduler has received a Departure event whose
waited time is the negative number `event.time - c.time`. -/
theorem processDeparture_unchecked_wait {Q : Type} (P : PriorityQueue Q) (hP : P.Lawful)
    (s : State Q) (ref : EventRef) (event : Event) (c : Customer) (rest : List Customer)
    (hline : s.bankLine = c :: rest)
    (hhead : P.top s.eventQueue = some event)
    (hread : ref.read P s.eventQueue = some event)
    (hlate : event.time < c.time)
    (hrange : InIntRange (event.time - c.time)) :
    ∃ (s' : State Q) (pushed : Event),
      processDeparture P ref s = some s' ∧
        s'.eventQueue = P.push (P.pop s.eventQueue) pushed ∧
        pushed ∈ P.contents s'.eventQueue ∧
        pushed.kind = EventKind.Departure ∧
        pushed.waitAccumulated = event.time - c.time ∧
        pushed.waitAccumulated < 0 ∧
        s'.bankLine = rest := by
  refine ⟨_, Event.mk EventKind.Departure (intAdd event.time c.transLength) 0
    (intSub event.time c.time), processDeparture_eq P ref s event event hread hhead,
    ?_, ?_, rfl, ?_, ?_, ?_⟩
  · rw [departureState_of_cons P _ s c rest hline]
  · rw [departureState_of_cons P _ s c rest hline]
    simp only
    rw [hP.contents_push]
    exact Multiset.mem_cons_self _ _
  · exact intSub_of_inRange _ _ hrange
  · simp only
    rw [intSub_of_inRange _ _ hrange]
    omega
  · rw [departureState_of_cons P _ s c rest hline]

theorem processDeparture_unchecked_wait_witness :
    listQueue.Lawful ∧ (0 : Int) < (Customer.mk 5 3).time ∧ InIntRange ((0 : Int) - 5) ∧
      ∃ (s' : State (List Event)) (pushed : Event),
        processDeparture listQueue EventRef.top
            (State.mk [Event.mk EventKind.Departure 0 0 0] [Customer.mk 5 3] false) = some s' ∧
          s'.eventQueue
            = listQueue.push (listQueue.pop [Event.mk EventKind.Departure 0 0 0]) pushed ∧
          pushed ∈ listQueue.contents s'.eventQueue ∧
          pushed.kind = EventKind.Departure ∧
          pushed.waitAccumulated = (0 : Int) - 5 ∧
          pushed.waitAccumulated < 0 ∧
          s'.bankLine = [] :=
  ⟨listQueue_lawful, by decide, by decide,
    processDeparture_unchecked_wait listQueue listQueue_lawful
      (State.mk [Event.mk EventKind.Departure 0 0 0] [Customer.mk 5 3] false)
      EventRef.top (Event.mk EventKind.Departure 0 0 0) (Customer.mk 5 3) [] rfl rfl rfl
      (by decide) (by decide)⟩

/-- C10, counterexample: `processArrival` given a Departure event changes the
teller flag and the scheduler, and `processDeparture` given an Arrival event
removes the front customer of the line and pushes a Departure event. -/
theorem handlers_accept_wrong_kind :
    processArrival listQueue (EventRef.own (Event.mk EventKind.Departure 0 5 0))
        (State.mk [Event.mk EventKind.Departure 0 5 0] [] true)
      = some (State.mk [Event.mk EventKind.Departure 5 0 0] [] false) ∧
      processDeparture listQueue (EventRef.own (Event.mk EventKind.Arrival 2 5 0))
        (State.mk [Event.mk EventKind.Arrival 2 5 0] [Customer.mk 1 3] false)
      = some (State.mk [Event.mk EventKind.Departure 5 0 1] [] false) := by
  decide

/-- C10, amended: the handlers never read the kind of the event they are
given.  For every event, every kind and every state, each handler returns for
the event with its kind replaced what it returns for the event itself; an
event of the other kind is processed like one of the expected kind. -/
theorem handlers_ignore_kind {Q : Type} (P : PriorityQueue Q) (s : State Q)
    (event : Event) (kind : EventKind) :
    processArrival P
          (EventRef.own (Event.mk kind event.time event.transLength event.waitAccumulated)) s
        = processArrival P (EventRef.own event) s ∧
      processDeparture P
          (EventRef.own (Event.mk kind event.time event.transLength event.waitAccumulated)) s
        = processDeparture P (EventRef.own event) s :=
  ⟨rfl, rfl⟩

/-! ## The documented postcondition of `processDeparture` -/

/-- C11, counterexample: with the teller available and the customer
`Customer(1, 3)` in the bank line, `processDeparture` removes the customer and
pushes one Departure event, and the teller is still available after the
call. -/
theorem processDeparture_leaves_teller_available :
    processDeparture listQueue (EventRef.own (Event.mk EventKind.Departure 5 0 0))
        (State.mk [Event.mk EventKind.Departure 5 0 0] [Customer.mk 1 3] true)
      = some (State.mk [Event.mk EventKind.Departure 8 0 4] [] true) := by
  decide

/-- C11, amended: for every state with a non-empty bank line and a non-empty
scheduler, `processDeparture` returns, having removed the first customer from
the line and added one event to the scheduler after the pop, and it leaves the
teller flag as it was: the teller is unavailable after the call when it was
unavailable before, which is the case in every state reached from an initial
state by calls of the handlers. -/
theorem processDeparture_keeps_teller_flag {Q : Type} (P : PriorityQueue Q) (hP : P.Lawful)
    (s : State Q) (ref : EventRef) (event head : Event) (c : Customer)
    (rest : List Customer)
    (hline : s.bankLine = c :: rest)
    (hhead : P.top s.eventQueue = some head)
    (hread : ref.read P s.eventQueue = some event) :
    ∃ s' : State Q,
      processDeparture P ref s = some s' ∧
        s'.bankLine = rest ∧
        (∃ pushed : Event, pushed.kind = EventKind.Departure ∧
          P.contents s'.eventQueue = pushed ::ₘ P.contents (P.pop s.eventQueue)) ∧
        s'.tellerAvailable = s.tellerAvailable ∧
        (s.tellerAvailable = false → s'.tellerAvailable = false) ∧
        (Reachable P s → s'.tellerAvailable = false) := by
  have hflag : (departureState P event.time s).tellerAvailable = s.tellerAvailable := by
    rw [departureState_of_cons P _ s c rest hline]
  refine ⟨_, processDeparture_eq P ref s event head hread hhead, ?_, ?_, hflag, ?_, ?_⟩
  · rw [departureState_of_cons P _ s c rest hline]
  · refine ⟨Event.mk EventKind.Departure (intAdd event.time c.transLength) 0
      (intSub event.time c.time), rfl, ?_⟩
    rw [departureState_of_cons P _ s c rest hline]
    simp only
    rw [hP.contents_push]
  · intro hbusy
    rw [hflag, hbusy]
  · intro hreach
    rw [hflag]
    rcases reachable_jointInvariant P s hreach with h | h
    · exact h
    · rw [hline] at h
      exact List.noConfusion h

theorem processDeparture_keeps_teller_flag_witness :
    listQueue.Lawful ∧
      ∃ s' : State (List Event),
        processDeparture listQueue EventRef.top
            (State.mk [Event.mk EventKind.Departure 5 0 0] [Customer.mk 1 3] false) = some s' ∧
          s'.bankLine = [] ∧
          s'.tellerAvailable = false :=
  ⟨listQueue_lawful,
    match processDeparture_keeps_teller_flag listQueue listQueue_lawful
      (State.mk [Event.mk EventKind.Departure 5 0 0] [Customer.mk 1 3] false)
      EventRef.top (Event.mk EventKind.Departure 5 0 0) (Event.mk EventKind.Departure 5 0 0)
      (Customer.mk 1 3) [] rfl rfl rfl with
    | ⟨s', h, hl, _, _, hb, _⟩ => ⟨s', h, hl, hb rfl⟩⟩

/-! ## Frame conditions -/

theorem cons_ne_self (e : Event) (m : Multiset Event) : e ::ₘ m ≠ m := by
  intro h
  have := congrArg Multiset.card h
  rw [Multiset.card_cons] at this
  omega

theorem append_singleton_ne_self (c : Customer) (l : List Customer) : l ++ [c] ≠ l := by
  intro h
  have := congrArg List.length h
  rw [List.length_append, List.length_singleton] at this
  omega

/-- C12: for every state with a non-empty scheduler and every event that can
be read through the reference passed, `processArrival` returns and has
performed exactly one of two effects: either the scheduler (after the pop)
has gained one new Departure event and the line is unchanged, or the line has
gained one new Customer at its tail and the scheduler has gained nothing;
never both and never neither.  In both cases the old line is a prefix of the
new one, so no customer is removed and the order is kept. -/
theorem processArrival_exactly_one_effect {Q : Type} (P : PriorityQueue Q) (hP : P.Lawful)
    (s : State Q) (ref : EventRef) (atEntry head afterPop : Event)
    (hentry : ref.read P s.eventQueue = some atEntry)
    (hhead : P.top s.eventQueue = some head)
    (hafter : ref.read P (P.pop s.eventQueue) = some afterPop) :
    ∃ s' : State Q,
      processArrival P ref s = some s' ∧
        ((P.contents s'.eventQueue
              = Event.mk EventKind.Departure (intAdd atEntry.time afterPop.transLength) 0 0
                  ::ₘ P.contents (P.pop s.eventQueue) ∧
            s'.bankLine = s.bankLine) ∨
          (P.contents s'.eventQueue = P.contents (P.pop s.eventQueue) ∧
            s'.bankLine = s.bankLine ++ [Customer.mk afterPop.time afterPop.transLength])) ∧
        ¬ ((∃ pushed : Event,
              P.contents s'.eventQueue = pushed ::ₘ P.contents (P.pop s.eventQueue)) ∧
            ∃ c : Customer, s'.bankLine = s.bankLine ++ [c]) ∧
        ¬ (P.contents s'.eventQueue = P.contents (P.pop s.eventQueue) ∧
            s'.bankLine = s.bankLine) ∧
        s.bankLine <+: s'.bankLine := by
  refine ⟨_, processArrival_eq P ref s atEntry head afterPop hentry hhead hafter, ?_⟩
  by_cases hc : (s.tellerAvailable && s.bankLine.isEmpty) = true
  · have hq : P.contents (arrivalState P atEntry.time afterPop s).eventQueue
        = Event.mk EventKind.Departure (intAdd atEntry.time afterPop.transLength) 0 0
            ::ₘ P.contents (P.pop s.eventQueue) := by
      simp [arrivalState, hc, hP.contents_push, Event.departure]
    have hline : (arrivalState P atEntry.time afterPop s).bankLine = s.bankLine := by
      simp [arrivalState, hc]
    refine ⟨Or.inl ⟨hq, hline⟩, ?_, ?_, ?_⟩
    · rintro ⟨_, c, hcl⟩
      rw [hline] at hcl
      exact append_singleton_ne_self c _ hcl.symm
    · rintro ⟨hq2, _⟩
      rw [hq] at hq2
      exact cons_ne_self _ _ hq2
    · rw [hline]
  · have hq : P.contents (arrivalState P atEntry.time afterPop s).eventQueue
        = P.contents (P.pop s.eventQueue) := by
      unfold arrivalState
      rw [if_neg hc]
    have hline : (arrivalState P atEntry.time afterPop s).bankLine
        = s.bankLine ++ [Customer.mk afterPop.time afterPop.transLength] := by
      unfold arrivalState
      rw [if_neg hc]
    refine ⟨Or.inr ⟨hq, hline⟩, ?_, ?_, ?_⟩
    · rintro ⟨⟨pushed, hpq⟩, _⟩
      rw [hq] at hpq
      exact cons_ne_self _ _ hpq.symm
    · rintro ⟨_, hl2⟩
      rw [hline] at hl2
      exact append_singleton_ne_self _ _ hl2
    · rw [hline]
      exact List.prefix_append _ _

theorem processArrival_exactly_one_effect_witness :
    listQueue.top [Event.mk EventKind.Arrival 2 4 0, Event.mk EventKind.Departure 5 0 0]
        = some (Event.mk EventKind.Arrival 2 4 0) ∧
      listQueue.top
          (listQueue.pop [Event.mk EventKind.Arrival 2 4 0, Event.mk EventKind.Departure 5 0 0])
        = some (Event.mk EventKind.Departure 5 0 0) ∧
      ∃ s' : State (List Event),
        processArrival listQueue EventRef.top
            (State.mk [Event.mk EventKind.Arrival 2 4 0, Event.mk EventKind.Departure 5 0 0]
              [Customer.mk 1 3] false) = some s' ∧
          [Customer.mk 1 3] <+: s'.bankLine :=
  ⟨rfl, rfl,
    match processArrival_exactly_one_effect listQueue listQueue_lawful
      (State.mk [Event.mk EventKind.Arrival 2 4 0, Event.mk EventKind.Departure 5 0 0]
        [Customer.mk 1 3] false)
      EventRef.top (Event.mk EventKind.Arrival 2 4 0) (Event.mk EventKind.Arrival 2 4 0)
      (Event.mk EventKind.Departure 5 0 0) rfl rfl rfl with
    | ⟨s', h, _, _, _, hp⟩ => ⟨s', h, hp⟩⟩

/-- C13: for every state with a non-empty scheduler and every event, however
it is passed, `processDeparture` returns, having removed at most one customer
from the line (the new line is a suffix of the old one and is at most one
shorter) and performed exactly one of two effects: it has pushed one new
Departure event, or it has set the teller flag to available (the flag after
the call is `true` whatever it was before); never both and never neither. -/
theorem processDeparture_exactly_one_effect {Q : Type} (P : PriorityQueue Q) (hP : P.Lawful)
    (s : State Q) (ref : EventRef) (atEntry head : Event)
    (hentry : ref.read P s.eventQueue = some atEntry)
    (hhead : P.top s.eventQueue = some head) :
    ∃ s' : State Q,
      processDeparture P ref s = some s' ∧
        s'.bankLine <:+ s.bankLine ∧
        s.bankLine.length - 1 ≤ s'.bankLine.length ∧
        (((∃ pushed : Event, pushed.kind = EventKind.Departure ∧
                P.contents s'.eventQueue = pushed ::ₘ P.contents (P.pop s.eventQueue)) ∧
              ¬ ∀ b : Bool, ∃ t : State Q,
                processDeparture P ref (State.mk s.eventQueue s.bankLine b) = some t ∧
                  t.tellerAvailable = true) ∨
          ((∀ b : Bool, ∃ t : State Q,
                processDeparture P ref (State.mk s.eventQueue s.bankLine b) = some t ∧
                  t.tellerAvailable = true) ∧
              ¬ ∃ pushed : Event,
                P.contents s'.eventQueue = pushed ::ₘ P.contents (P.pop s.eventQueue))) := by
  refine ⟨_, processDeparture_eq P ref s atEntry head hentry hhead, ?_⟩
  have hflag : ∀ (line : List Customer) (b : Bool),
      processDeparture P ref (State.mk s.eventQueue line b)
        = some (departureState P atEntry.time (State.mk s.eventQueue line b)) :=
    fun line b => processDeparture_eq P ref (State.mk s.eventQueue line b) atEntry head
      hentry hhead
  cases hl : s.bankLine with
  | nil =>
    rw [departureState_of_nil P _ s hl]
    refine ⟨?_, ?_, Or.inr ⟨?_, ?_⟩⟩
    · simp
    · simp
    · intro b
      refine ⟨_, hflag [] b, ?_⟩
      rw [departureState_of_nil P _ _ rfl]
    · rintro ⟨pushed, hpq⟩
      exact cons_ne_self _ _ hpq.symm
  | cons c rest =>
    rw [departureState_of_cons P _ s c rest hl]
    refine ⟨?_, ?_, Or.inl ⟨?_, ?_⟩⟩
    · simp
    · simp
    · refine ⟨Event.mk EventKind.Departure (intAdd atEntry.time c.transLength) 0
        (intSub atEntry.time c.time), rfl, ?_⟩
      simp only
      rw [hP.contents_push]
    · intro hall
      obtain ⟨t, ht, htrue⟩ := hall false
      rw [hflag (c :: rest) false, Option.some.injEq] at ht
      rw [← ht, departureState_of_cons P _ _ c rest rfl] at htrue
      exact Bool.noConfusion htrue

theorem processDeparture_exactly_one_effect_witness :
    listQueue.top [Event.mk EventKind.Departure 5 0 0] = some (Event.mk EventKind.Departure 5 0 0) ∧
      ∃ s' : State (List Event),
        processDeparture listQueue EventRef.top
            (State.mk [Event.mk EventKind.Departure 5 0 0] [Customer.mk 1 3, Customer.mk 2 4]
              false) = some s' ∧
          s'.bankLine <:+ [Customer.mk 1 3, Customer.mk 2 4] :=
  ⟨rfl,
    match processDeparture_exactly_one_effect listQueue listQueue_lawful
      (State.mk [Event.mk EventKind.Departure 5 0 0] [Customer.mk 1 3, Customer.mk 2 4] false)
      EventRef.top (Event.mk EventKind.Departure 5 0 0) (Event.mk EventKind.Departure 5 0 0)
      rfl rfl with
    | ⟨s', h, hsuf, _, _⟩ => ⟨s', h, hsuf⟩⟩

/-! ## The head is removed, the argument is read -/

/-- When the event is passed as a pointer of the caller's own (the head or any
other event, in the scheduler or not), both handlers remove the head of the
scheduler and compute the new Departure and the new Customer from the
argument. -/
theorem handlers_own_pop_head {Q : Type} (P : PriorityQueue Q) (hP : P.Lawful)
    (s : State Q) (head event : Event) (hhead : P.top s.eventQueue = some head) :
    (∃ s' : State Q, processArrival P (EventRef.own event) s = some s' ∧
        (s.tellerAvailable = true → s.bankLine = [] →
          P.contents s'.eventQueue
            = Event.mk EventKind.Departure (intAdd event.time event.transLength) 0 0
                ::ₘ (P.contents s.eventQueue).erase head) ∧
        (s.tellerAvailable = false ∨ s.bankLine ≠ [] →
          P.contents s'.eventQueue = (P.contents s.eventQueue).erase head ∧
            s'.bankLine = s.bankLine ++ [Customer.mk event.time event.transLength])) ∧
      (∃ s' : State Q, processDeparture P (EventRef.own event) s = some s' ∧
        (∀ (c : Customer) (rest : List Customer), s.bankLine = c :: rest →
          P.contents s'.eventQueue
            = Event.mk EventKind.Departure (intAdd event.time c.transLength) 0
                  (intSub event.time c.time)
                ::ₘ (P.contents s.eventQueue).erase head) ∧
        (s.bankLine = [] →
          P.contents s'.eventQueue = (P.contents s.eventQueue).erase head)) := by
  have hpop := hP.contents_pop _ _ hhead
  refine ⟨⟨_, processArrival_own P event head s hhead, ?_, ?_⟩,
    ⟨_, processDeparture_own P event head s hhead, ?_, ?_⟩⟩
  · intro ht hl
    rw [arrivalState_of_free P _ _ s ht hl]
    simp only
    rw [hP.contents_push, hpop]
  · intro hbusy
    rw [arrivalState_of_busy P _ _ s hbusy]
    exact ⟨hpop, rfl⟩
  · intro c rest hl
    rw [departureState_of_cons P _ s c rest hl]
    simp only
    rw [hP.contents_push, hpop]
  · intro hl
    rw [departureState_of_nil P _ s hl]
    exact hpop

/-- C19, evaluation at the failing input: the scheduler holds the arrivals
`(time 2, transLength 7)` and `(time 4, transLength 1)` and the head is passed
as `eventQueue.top()`.  With the teller available and the line empty,
`processArrival` pushes a Departure at time 3, neither `2 + 7` nor a value of
the removed head alone; with the teller busy it enqueues `Customer(4, 1)`, the
fields of the event that is the head after the pop.  Passed as a pointer of
the caller's own, the same event gives a Departure at time 9 and
`Customer(2, 7)`. -/
theorem processArrival_top_reads_after_pop :
    processArrival listQueue EventRef.top
        (State.mk [Event.mk EventKind.Arrival 2 7 0, Event.mk EventKind.Arrival 4 1 0] [] true)
      = some (State.mk
          [Event.mk EventKind.Arrival 4 1 0, Event.mk EventKind.Departure 3 0 0] [] false) ∧
      processArrival listQueue EventRef.top
        (State.mk [Event.mk EventKind.Arrival 2 7 0, Event.mk EventKind.Arrival 4 1 0]
          [Customer.mk 1 1] false)
      = some (State.mk [Event.mk EventKind.Arrival 4 1 0]
          [Customer.mk 1 1, Customer.mk 4 1] false) ∧
      processArrival listQueue (EventRef.own (Event.mk EventKind.Arrival 2 7 0))
        (State.mk [Event.mk EventKind.Arrival 2 7 0, Event.mk EventKind.Arrival 4 1 0] [] true)
      = some (State.mk
          [Event.mk EventKind.Arrival 4 1 0, Event.mk EventKind.Departure 9 0 0] [] false) ∧
      processArrival listQueue (EventRef.own (Event.mk EventKind.Arrival 2 7 0))
        (State.mk [Event.mk EventKind.Arrival 2 7 0, Event.mk EventKind.Arrival 4 1 0]
          [Customer.mk 1 1] false)
      = some (State.mk [Event.mk EventKind.Arrival 4 1 0]
          [Customer.mk 1 1, Customer.mk 2 7] false) := by
  decide

/-! ## The two scenarios -/

/-- C14, evaluation at the failing input: the seed holds the arrivals
`(time 0, transLength 5)` and `(time 1, transLength 3)`.  When each head is
passed as `eventQueue.top()`, the first arrival schedules a Departure at time
3 instead of 5, the second arrival is enqueued as `Customer(3, 0)` instead of
`Customer(1, 3)`, and the first departure pushes a Departure at time 3 with
waited time 0 instead of a Departure at time 8 with waited time 4.  When each
head is passed as a pointer of the caller's own, the third step leaves the
Departure at time 8 with waited time 4. -/
theorem two_arrivals_by_reference :
    processArrival listQueue EventRef.top
        (State.mk [Event.mk EventKind.Arrival 0 5 0, Event.mk EventKind.Arrival 1 3 0] [] true)
      = some (State.mk
          [Event.mk EventKind.Arrival 1 3 0, Event.mk EventKind.Departure 3 0 0] [] false) ∧
      processArrival listQueue EventRef.top
        (State.mk [Event.mk EventKind.Arrival 1 3 0, Event.mk EventKind.Departure 3 0 0]
          [] false)
      = some (State.mk [Event.mk EventKind.Departure 3 0 0] [Customer.mk 3 0] false) ∧
      processDeparture listQueue EventRef.top
        (State.mk [Event.mk EventKind.Departure 3 0 0] [Customer.mk 3 0] false)
      = some (State.mk [Event.mk EventKind.Departure 3 0 0] [] false) ∧
      stepN listQueue 3
        (State.mk [Event.mk EventKind.Arrival 0 5 0, Event.mk EventKind.Arrival 1 3 0] [] true)
      = some (State.mk [Event.mk EventKind.Departure 8 0 4] [] false) := by
  decide

/-- C15, evaluation at the failing input: the scheduler holds the single
arrival `(time 0, transLength 5)` and the head is passed as
`eventQueue.top()`.  After the pop the queue is empty and the reads of
`event->time` and `event->transLength` go through a reference to an element
that no longer exists: the behaviour is undefined.  Passed as a pointer of the
caller's own, the same arrival schedules the Departure at time 5. -/
theorem single_arrival_by_reference :
    processArrival listQueue EventRef.top
        (State.mk [Event.mk EventKind.Arrival 0 5 0] [] true) = none ∧
      processArrival listQueue (EventRef.own (Event.mk EventKind.Arrival 0 5 0))
        (State.mk [Event.mk EventKind.Arrival 0 5 0] [] true)
      = some (State.mk [Event.mk EventKind.Departure 5 0 0] [] false) := by
  decide

/-! ## Simulated time -/

theorem arrivalsPending_arrivalState {Q : Type} (P : PriorityQueue Q) (hP : P.Lawful)
    (s : State Q) (head : Event) (t : Int) (e : Event)
    (hhead : P.top s.eventQueue = some head)
    (hkind : head.kind = EventKind.Arrival) :
    arrivalsPending P (arrivalState P t e s) + 1 = arrivalsPending P s := by
  have hmem := hP.top_mem _ _ hhead
  have hpop : (P.contents (P.pop s.eventQueue)).countP (fun e => e.kind = EventKind.Arrival) + 1
      = (P.contents s.eventQueue).countP (fun e => e.kind = EventKind.Arrival) := by
    rw [hP.contents_pop _ _ hhead]
    exact countP_erase_of_pos (fun e => e.kind = EventKind.Arrival) _ _ hmem hkind
  have hdep : ∀ t : Int, ¬ (Event.departure t).kind = EventKind.Arrival := by
    intro t h
    exact EventKind.noConfusion h
  unfold arrivalsPending arrivalState
  by_cases hc : (s.tellerAvailable && s.bankLine.isEmpty) = true
  · simp only [hc, if_true]
    rw [hP.contents_push, Multiset.countP_cons]
    simp only [hdep, if_false, Nat.add_zero]
    exact hpop
  · rw [if_neg hc]
    exact hpop

theorem arrivalsPending_departureState {Q : Type} (P : PriorityQueue Q) (hP : P.Lawful)
    (s : State Q) (head : Event) (t : Int)
    (hhead : P.top s.eventQueue = some head)
    (hkind : head.kind = EventKind.Departure) :
    arrivalsPending P (departureState P t s) = arrivalsPending P s := by
  have hmem := hP.top_mem _ _ hhead
  have hne : ¬ head.kind = EventKind.Arrival := by rw [hkind]; decide
  have hpop : (P.contents (P.pop s.eventQueue)).countP (fun e => e.kind = EventKind.Arrival)
      = (P.contents s.eventQueue).countP (fun e => e.kind = EventKind.Arrival) := by
    rw [hP.contents_pop _ _ hhead]
    exact countP_erase_of_neg _ _ _ hmem hne
  have hdep : ∀ t w : Int, ¬ (Event.departureAfterWait t w).kind = EventKind.Arrival := by
    intro t w h
    exact EventKind.noConfusion h
  unfold arrivalsPending departureState
  cases hl : s.bankLine with
  | nil => exact hpop
  | cons c rest =>
    simp only
    rw [hP.contents_push, Multiset.countP_cons]
    simp only [hdep, if_false, Nat.add_zero]
    exact hpop

theorem length_arrivalState {Q : Type} (P : PriorityQueue Q) (s : State Q) (t : Int)
    (e : Event) :
    (arrivalState P t e s).bankLine.length
      = if s.tellerAvailable && s.bankLine.isEmpty then s.bankLine.length
        else s.bankLine.length + 1 := by
  unfold arrivalState
  by_cases hc : (s.tellerAvailable && s.bankLine.isEmpty) = true
  · simp only [hc, if_true]
  · simp [hc]

theorem length_departureState {Q : Type} (P : PriorityQueue Q) (s : State Q) (t : Int) :
    (departureState P t s).bankLine.length = s.bankLine.length - 1 := by
  unfold departureState
  cases hl : s.bankLine with
  | nil => rfl
  | cons c rest => simp

theorem pending_eq_zero_of_empty {Q : Type} (P : PriorityQueue Q) (s : State Q)
    (h : P.contents s.eventQueue = 0) :
    arrivalsPending P s = 0 ∧ departuresPending P s = 0 := by
  unfold arrivalsPending departuresPending
  rw [h]
  exact ⟨Multiset.countP_zero _, Multiset.countP_zero _⟩

theorem idle_and_empty_of_stopped {Q : Type} (P : PriorityQueue Q) (hP : P.Lawful)
    (s : State Q) (hjoint : JointInvariant s) (hserver : ServerInvariant P s)
    (htop : P.top s.eventQueue = none) :
    P.contents s.eventQueue = 0 ∧ s.tellerAvailable = true ∧ s.bankLine = [] := by
  have h0 := (hP.top_eq_none _).1 htop
  have ht : s.tellerAvailable = true := by
    cases hb : s.tellerAvailable with
    | true => rfl
    | false =>
      obtain ⟨e, he, _⟩ := hserver.1.1 hb
      rw [h0] at he
      exact absurd he (Multiset.not_mem_zero e)
  refine ⟨h0, ht, ?_⟩
  rcases hjoint with h | h
  · rw [ht] at h
    exact Bool.noConfusion h
  · exact h

theorem runToCompletion_of_stopped {Q : Type} (P : PriorityQueue Q) (fuel : Nat)
    (s : State Q) (htop : P.top s.eventQueue = none) :
    runToCompletion P fuel s = some (RunResult.mk s 0 0) := by
  cases fuel with
  | zero => simp [runToCompletion, htop]
  | succ fuel => simp [runToCompletion, htop]

theorem pending_pos_of_top {Q : Type} (P : PriorityQueue Q) (hP : P.Lawful) (s : State Q)
    (event : Event) (htop : P.top s.eventQueue = some event) :
    0 < arrivalsPending P s + departuresPending P s := by
  have hmem := hP.top_mem _ _ htop
  cases hk : event.kind with
  | Arrival =>
    have : 0 < arrivalsPending P s :=
      Multiset.countP_pos_of_mem hmem hk
    omega
  | Departure =>
    have : 0 < departuresPending P s :=
      Multiset.countP_pos_of_mem hmem hk
    omega

theorem arrivalState_measure {Q : Type} (P : PriorityQueue Q) (hP : P.Lawful)
    (s : State Q) (event : Event) (htop : P.top s.eventQueue = some event)
    (hk : event.kind = EventKind.Arrival) :
    arrivalsPending P (arrivalState P event.time event s) + 1 = arrivalsPending P s ∧
      departuresPending P (arrivalState P event.time event s)
          + (arrivalState P event.time event s).bankLine.length
        = departuresPending P s + s.bankLine.length + 1 := by
  have hA := arrivalsPending_arrivalState P hP s event event.time event htop hk
  have hD := departuresPending_arrivalState P hP s event event.time event htop hk
  have hL := length_arrivalState P s event.time event
  refine ⟨hA, ?_⟩
  by_cases hc : (s.tellerAvailable && s.bankLine.isEmpty) = true
  · simp only [hc, if_true] at hD hL
    omega
  · rw [if_neg hc] at hD hL
    omega

theorem departureState_measure {Q : Type} (P : PriorityQueue Q) (hP : P.Lawful)
    (s : State Q) (event : Event) (htop : P.top s.eventQueue = some event)
    (hk : event.kind = EventKind.Departure) :
    arrivalsPending P (departureState P event.time s) = arrivalsPending P s ∧
      departuresPending P (departureState P event.time s)
          + (departureState P event.time s).bankLine.length + 1
        = departuresPending P s + s.bankLine.length := by
  have hA := arrivalsPending_departureState P hP s event event.time htop hk
  have hD := departuresPending_departureState P hP s event event.time htop hk
  have hL := length_departureState P s event.time
  refine ⟨hA, ?_⟩
  cases hl : s.bankLine with
  | nil =>
    simp only [hl, if_true, List.length_nil] at hD hL
    rw [hL]
    simp only [List.length_nil]
    omega
  | cons c rest =>
    simp only [hl, reduceCtorEq, if_false, List.length_cons] at hD hL
    rw [hL]
    simp only [List.length_cons]
    omega

theorem runToCompletion_complete {Q : Type} (P : PriorityQueue Q) (hP : P.Lawful)
    (fuel : Nat) (s : State Q) (hjoint : JointInvariant s) (hserver : ServerInvariant P s)
    (hfuel : 2 * arrivalsPending P s + departuresPending P s + s.bankLine.length ≤ fuel) :
    ∃ sf : State Q,
      runToCompletion P fuel s
          = some (RunResult.mk sf (arrivalsPending P s)
              (arrivalsPending P s + departuresPending P s + s.bankLine.length)) ∧
        P.contents sf.eventQueue = 0 ∧ sf.tellerAvailable = true ∧ sf.bankLine = [] := by
  induction fuel generalizing s with
  | zero =>
    cases htop : P.top s.eventQueue with
    | none =>
      obtain ⟨h0, ht, hl⟩ := idle_and_empty_of_stopped P hP s hjoint hserver htop
      obtain ⟨ha, hd⟩ := pending_eq_zero_of_empty P s h0
      refine ⟨s, ?_, h0, ht, hl⟩
      rw [runToCompletion_of_stopped P 0 s htop, ha, hd, hl]
      rfl
    | some event =>
      have := pending_pos_of_top P hP s event htop
      omega
  | succ fuel ih =>
    cases htop : P.top s.eventQueue with
    | none =>
      obtain ⟨h0, ht, hl⟩ := idle_and_empty_of_stopped P hP s hjoint hserver htop
      obtain ⟨ha, hd⟩ := pending_eq_zero_of_empty P s h0
      refine ⟨s, ?_, h0, ht, hl⟩
      rw [runToCompletion_of_stopped P _ s htop, ha, hd, hl]
      rfl
    | some event =>
      cases hk : event.kind with
      | Arrival =>
        obtain ⟨hA, hsum⟩ := arrivalState_measure P hP s event htop hk
        obtain ⟨sf, hrun, h0, ht, hl⟩ := ih (arrivalState P event.time event s)
          (arrivalState_jointInvariant P _ _ s hjoint)
          (arrivalState_serverInvariant P hP s event _ _ hserver htop hk) (by omega)
        refine ⟨sf, ?_, h0, ht, hl⟩
        have e2 : arrivalsPending P (arrivalState P event.time event s)
            + departuresPending P (arrivalState P event.time event s)
            + (arrivalState P event.time event s).bankLine.length
            = arrivalsPending P s + departuresPending P s + s.bankLine.length := by omega
        simp only [runToCompletion, htop, hk, processArrival_own P event event s htop,
          Option.some_bind, hrun, Option.map_some', hA, e2]
      | Departure =>
        obtain ⟨hA, hsum⟩ := departureState_measure P hP s event htop hk
        obtain ⟨sf, hrun, h0, ht, hl⟩ := ih (departureState P event.time s)
          (departureState_jointInvariant P _ s hjoint)
          (departureState_serverInvariant P hP s event _ hserver htop hk) (by omega)
        refine ⟨sf, ?_, h0, ht, hl⟩
        have e2 : arrivalsPending P (departureState P event.time s)
            + departuresPending P (departureState P event.time s)
            + (departureState P event.time s).bankLine.length + 1
            = arrivalsPending P s + departuresPending P s + s.bankLine.length := by omega
        simp only [runToCompletion, htop, hk, processDeparture_own P event event s htop,
          Option.some_bind, hrun, Option.map_some', e2]
        rw [hA]

theorem runToCompletion_out_of_fuel {Q : Type} (P : PriorityQueue Q) (hP : P.Lawful)
    (fuel : Nat) (s : State Q) (hjoint : JointInvariant s) (hserver : ServerInvariant P s)
    (hfuel : fuel < 2 * arrivalsPending P s + departuresPending P s + s.bankLine.length) :
    runToCompletion P fuel s = none := by
  induction fuel generalizing s with
  | zero =>
    cases htop : P.top s.eventQueue with
    | none =>
      obtain ⟨h0, _, hl⟩ := idle_and_empty_of_stopped P hP s hjoint hserver htop
      obtain ⟨ha, hd⟩ := pending_eq_zero_of_empty P s h0
      rw [ha, hd, hl] at hfuel
      simp at hfuel
    | some event => simp [runToCompletion, htop]
  | succ fuel ih =>
    cases htop : P.top s.eventQueue with
    | none =>
      obtain ⟨h0, _, hl⟩ := idle_and_empty_of_stopped P hP s hjoint hserver htop
      obtain ⟨ha, hd⟩ := pending_eq_zero_of_empty P s h0
      rw [ha, hd, hl] at hfuel
      simp at hfuel
    | some event =>
      cases hk : event.kind with
      | Arrival =>
        obtain ⟨hA, hsum⟩ := arrivalState_measure P hP s event htop hk
        have hrun := ih (arrivalState P event.time event s)
          (arrivalState_jointInvariant P _ _ s hjoint)
          (arrivalState_serverInvariant P hP s event _ _ hserver htop hk) (by omega)
        simp only [runToCompletion, htop, hk, processArrival_own P event event s htop,
          Option.some_bind, hrun, Option.map_none']
      | Departure =>
        obtain ⟨hA, hsum⟩ := departureState_measure P hP s event htop hk
        have hrun := ih (departureState P event.time s)
          (departureState_jointInvariant P _ s hjoint)
          (departureState_serverInvariant P hP s event _ hserver htop hk) (by omega)
        simp only [runToCompletion, htop, hk, processDeparture_own P event event s htop,
          Option.some_bind, hrun, Option.map_none']

theorem seeded_pending {Q : Type} (P : PriorityQueue Q) (s : State Q) (h : Seeded P s) :
    arrivalsPending P s = Multiset.card (P.contents s.eventQueue) ∧
      departuresPending P s = 0 := by
  obtain ⟨_, _, hall⟩ := h
  refine ⟨Multiset.countP_eq_card.2 hall, ?_⟩
  by_contra hne
  obtain ⟨e, he, hk⟩ := Multiset.countP_pos.1 (Nat.pos_of_ne_zero hne)
  rw [hall e he] at hk
  exact EventKind.noConfusion hk

/-- C17: for every seed of `n` Arrival events with non-negative service
durations, starting with the teller available and the line empty, the loop
that passes the head of the scheduler (an event of least time, ties broken in
any way) to the handler of its kind until the scheduler is empty terminates
after exactly `2 n` handler calls, `n` of `processArrival` and `n` of
`processDeparture`: any fuel of at least `2 n` calls gives the result, less
fuel does not, and the final state has the teller available, the line empty
and the scheduler empty.  For `n = 0` it terminates at once with the state
unchanged. -/
theorem runToCompletion_terminates {Q : Type} (P : PriorityQueue Q) (hP : P.Lawful)
    (_hmin : P.MinTime) (s₀ : State Q) (n : Nat) (hseed : Seeded P s₀)
    (hcard : Multiset.card (P.contents s₀.eventQueue) = n)
    (_hlen : ∀ e ∈ P.contents s₀.eventQueue, 0 ≤ e.transLength) :
    (∀ fuel : Nat, 2 * n ≤ fuel →
        ∃ sf : State Q,
          runToCompletion P fuel s₀ = some (RunResult.mk sf n n) ∧
            sf.tellerAvailable = true ∧ sf.bankLine = [] ∧
            P.contents sf.eventQueue = 0) ∧
      (∀ fuel : Nat, fuel < 2 * n → runToCompletion P fuel s₀ = none) ∧
      (n = 0 → ∀ fuel : Nat, runToCompletion P fuel s₀ = some (RunResult.mk s₀ 0 0)) := by
  obtain ⟨ha, hd⟩ := seeded_pending P s₀ hseed
  rw [hcard] at ha
  have hl : s₀.bankLine.length = 0 := by rw [hseed.2.1]; rfl
  have hjoint : JointInvariant s₀ := Or.inr hseed.2.1
  have hserver := seeded_serverInvariant P s₀ hseed
  refine ⟨?_, ?_, ?_⟩
  · intro fuel hfuel
    obtain ⟨sf, hrun, h0, ht, hline⟩ :=
      runToCompletion_complete P hP fuel s₀ hjoint hserver (by omega)
    rw [ha, hd, hl] at hrun
    exact ⟨sf, hrun, ht, hline, h0⟩
  · intro fuel hfuel
    exact runToCompletion_out_of_fuel P hP fuel s₀ hjoint hserver (by omega)
  · intro hn fuel
    have h0 : P.contents s₀.eventQueue = 0 := by
      rw [← Multiset.card_eq_zero, hcard, hn]
    exact runToCompletion_of_stopped P fuel s₀ ((hP.top_eq_none _).2 h0)

theorem runToCompletion_terminates_witness :
    listQueue.Lawful ∧ listQueue.MinTime ∧
      Multiset.card (listQueue.contents
        [Event.mk EventKind.Arrival 0 5 0, Event.mk EventKind.Arrival 1 3 0]) = 2 ∧
      (∃ sf : State (List Event),
        runToCompletion listQueue 4
            (State.mk [Event.mk EventKind.Arrival 0 5 0, Event.mk EventKind.Arrival 1 3 0]
              [] true)
          = some (RunResult.mk sf 2 2) ∧
          sf.tellerAvailable = true ∧ sf.bankLine = [] ∧
          listQueue.contents sf.eventQueue = 0) ∧
      runToCompletion listQueue 3
          (State.mk [Event.mk EventKind.Arrival 0 5 0, Event.mk EventKind.Arrival 1 3 0]
            [] true) = none :=
  have hmem : ∀ e ∈ listQueue.contents
      [Event.mk EventKind.Arrival 0 5 0, Event.mk EventKind.Arrival 1 3 0],
      e = Event.mk EventKind.Arrival 0 5 0 ∨ e = Event.mk EventKind.Arrival 1 3 0 := by
    intro e he
    simpa [listQueue] using he
  have h := runToCompletion_terminates listQueue listQueue_lawful listQueue_minTime
    (State.mk [Event.mk EventKind.Arrival 0 5 0, Event.mk EventKind.Arrival 1 3 0] [] true) 2
    ⟨rfl, rfl, fun e he => by rcases hmem e he with h | h <;> rw [h]⟩ rfl
    (fun e he => by rcases hmem e he with h | h <;> (subst h; decide))
  ⟨listQueue_lawful, listQueue_minTime, rfl, h.1 4 (by decide), h.2.1 3 (by decide)⟩

/-! ## The bank line is ordered by arrival time -/

theorem arrivalState_lineSorted {Q : Type} (P : PriorityQueue Q) (s : State Q) (t : Int)
    (e : Event) (hsorted : LineSorted s.bankLine)
    (hbound : ∀ c ∈ s.bankLine, c.time ≤ e.time) :
    LineSorted (arrivalState P t e s).bankLine := by
  unfold LineSorted at *
  unfold arrivalState
  by_cases hc : (s.tellerAvailable && s.bankLine.isEmpty) = true
  · simp only [hc, if_true]
    exact hsorted
  · rw [if_neg hc]
    simp only
    rw [List.pairwise_append]
    refine ⟨hsorted, List.pairwise_singleton _ _, ?_⟩
    intro a ha b hb
    rw [List.mem_singleton] at hb
    rw [hb]
    exact hbound a ha

theorem departureState_lineSorted {Q : Type} (P : PriorityQueue Q) (s : State Q) (t : Int)
    (hsorted : LineSorted s.bankLine) :
    LineSorted (departureState P t s).bankLine := by
  unfold LineSorted at *
  unfold departureState
  cases hl : s.bankLine with
  | nil => exact List.Pairwise.nil
  | cons c rest =>
    rw [hl] at hsorted
    exact (List.pairwise_cons.1 hsorted).2

theorem dispatch_cases {Q : Type} (P : PriorityQueue Q) (s s' : State Q) (event : Event)
    (h : dispatch P event s = some s') :
    (event.kind = EventKind.Arrival ∧ s' = arrivalState P event.time event s) ∨
      (event.kind = EventKind.Departure ∧ s' = departureState P event.time s) := by
  unfold dispatch at h
  cases hk : event.kind with
  | Arrival =>
    rw [hk] at h
    simp only at h
    obtain ⟨atEntry, _, afterPop, h1, _, h3, heq⟩ := processArrival_inv P _ s s' h
    simp only [EventRef.read, Option.some.injEq] at h1 h3
    subst h1
    subst h3
    exact Or.inl ⟨rfl, heq⟩
  | Departure =>
    rw [hk] at h
    simp only at h
    obtain ⟨atEntry, _, h1, _, heq⟩ := processDeparture_inv P _ s s' h
    simp only [EventRef.read, Option.some.injEq] at h1
    subst h1
    exact Or.inr ⟨rfl, heq⟩

theorem dispatch_line {Q : Type} (P : PriorityQueue Q) (s s' : State Q) (event : Event)
    (h : dispatch P event s = some s') :
    (leftLine s.bankLine s'.bankLine = [] ∧
        (s'.bankLine = s.bankLine ∨
          s'.bankLine = s.bankLine ++ [Customer.mk event.time event.transLength])) ∨
      ∃ (c : Customer) (rest : List Customer),
        s.bankLine = c :: rest ∧ s'.bankLine = rest ∧
          leftLine s.bankLine s'.bankLine = [c] := by
  rcases dispatch_cases P s s' event h with ⟨_, heq⟩ | ⟨_, heq⟩
  · left
    by_cases hc : (s.tellerAvailable && s.bankLine.isEmpty) = true
    · have hline : s'.bankLine = s.bankLine := by
        rw [heq]
        simp [arrivalState, hc]
      rw [hline]
      exact ⟨by simp [leftLine], Or.inl rfl⟩
    · have hline : s'.bankLine
          = s.bankLine ++ [Customer.mk event.time event.transLength] := by
        rw [heq]
        unfold arrivalState
        rw [if_neg hc]
      rw [hline]
      exact ⟨by simp [leftLine], Or.inr rfl⟩
  · cases hl : s.bankLine with
    | nil =>
      left
      have hline : s'.bankLine = [] := by
        rw [heq, departureState_of_nil P _ s hl]
      rw [hline]
      exact ⟨by simp [leftLine], Or.inl rfl⟩
    | cons c rest =>
      right
      have hline : s'.bankLine = rest := by
        rw [heq, departureState_of_cons P _ s c rest hl]
      rw [hline]
      exact ⟨c, rest, rfl, rfl, by simp [leftLine]⟩

theorem served_mem {Q : Type} (P : PriorityQueue Q) (events : List Event) (s : State Q)
    (c : Customer) (hc : c ∈ served P events s) :
    c ∈ s.bankLine ∨ ∃ e ∈ events, c.time = e.time := by
  induction events generalizing s with
  | nil => simp [served] at hc
  | cons event events ih =>
    cases hdisp : dispatch P event s with
    | none => simp [served, hdisp] at hc
    | some s' =>
      simp only [served, hdisp, List.mem_append] at hc
      have hd := dispatch_line P s s' event hdisp
      rcases hc with hleft | hrest
      · left
        exact List.mem_of_mem_take hleft
      · rcases ih s' hrest with hin | ⟨e, he, hce⟩
        · rcases hd with ⟨_, hsame | happ⟩ | ⟨c', rest, hl, hl', _⟩
          · left; rw [← hsame]; exact hin
          · rw [happ] at hin
            rcases List.mem_append.1 hin with h | h
            · left; exact h
            · right
              rw [List.mem_singleton] at h
              exact ⟨event, List.mem_cons_self _ _, by rw [h]⟩
          · left
            rw [hl'] at hin
            rw [hl]
            exact List.mem_cons_of_mem _ hin
        · right
          exact ⟨e, List.mem_cons_of_mem _ he, hce⟩

theorem served_sorted {Q : Type} (P : PriorityQueue Q) (events : List Event) (s : State Q)
    (hevents : events.Pairwise (fun a b => a.time ≤ b.time))
    (hsorted : LineSorted s.bankLine)
    (hbound : ∀ c ∈ s.bankLine, ∀ e ∈ events, c.time ≤ e.time) :
    LineSorted (served P events s) := by
  induction events generalizing s with
  | nil => exact List.Pairwise.nil
  | cons event events ih =>
    obtain ⟨hhead, htail⟩ := List.pairwise_cons.1 hevents
    cases hdisp : dispatch P event s with
    | none =>
      simp only [served, hdisp]
      exact List.Pairwise.nil
    | some s' =>
      have hd := dispatch_line P s s' event hdisp
      simp only [served, hdisp]
      rcases hd with ⟨hleft, hsame | happ⟩ | ⟨c, rest, hl, hl', hleft⟩
      · rw [hleft, List.nil_append]
        apply ih s' htail
        · rw [hsame]; exact hsorted
        · rw [hsame]
          intro c hc e he
          exact hbound c hc e (List.mem_cons_of_mem _ he)
      · rw [hleft, List.nil_append]
        apply ih s' htail
        · rw [happ]
          unfold LineSorted at *
          rw [List.pairwise_append]
          refine ⟨hsorted, List.pairwise_singleton _ _, ?_⟩
          intro a ha b hb
          rw [List.mem_singleton] at hb
          rw [hb]
          exact hbound a ha event (List.mem_cons_self _ _)
        · rw [happ]
          intro c hc e he
          rcases List.mem_append.1 hc with h | h
          · exact hbound c h e (List.mem_cons_of_mem _ he)
          · rw [List.mem_singleton] at h
            rw [h]
            exact hhead e he
      · rw [hleft]
        have hsorted' : LineSorted (c :: rest) := by rw [← hl]; exact hsorted
        obtain ⟨hc_le, hrest⟩ := List.pairwise_cons.1 hsorted'
        have hbound' : ∀ d ∈ rest, ∀ e ∈ events, d.time ≤ e.time := by
          intro d hd e he
          exact hbound d (by rw [hl]; exact List.mem_cons_of_mem _ hd) e
            (List.mem_cons_of_mem _ he)
        have hih := ih s' htail (by rw [hl']; exact hrest) (by rw [hl']; exact hbound')
        show LineSorted (c :: served P events s')
        unfold LineSorted
        refine List.Pairwise.cons ?_ hih
        intro b hb
        rcases served_mem P events s' b hb with hin | ⟨e, he, hbe⟩
        · rw [hl'] at hin
          exact hc_le b hin
        · rw [hbe]
          exact hbound c (by rw [hl]; exact List.mem_cons_self _ _) e
            (List.mem_cons_of_mem _ he)

theorem step_lineSorted {Q : Type} (P : PriorityQueue Q) (hP : P.Lawful)
    (hmin : P.MinTime) (s s' : State Q)
    (hsorted : LineSorted s.bankLine)
    (hbound : ∀ c ∈ s.bankLine, ∀ x ∈ P.contents s.eventQueue,
      x.kind = EventKind.Arrival → c.time ≤ x.time)
    (hstep : step P s = some s') :
    LineSorted s'.bankLine ∧
      ∀ c ∈ s'.bankLine, ∀ x ∈ P.contents s'.eventQueue,
        x.kind = EventKind.Arrival → c.time ≤ x.time := by
  obtain ⟨event, htop, ⟨hk, heq⟩ | ⟨hk, heq⟩⟩ := step_cases P s s' hstep
  · have hmem := hP.top_mem _ _ htop
    have hpop := hP.contents_pop _ _ htop
    refine ⟨?_, ?_⟩
    · rw [heq]
      exact arrivalState_lineSorted P s _ event hsorted
        (fun c hc => hbound c hc event hmem hk)
    · rw [heq]
      by_cases hfree : s.tellerAvailable = true ∧ s.bankLine = []
      · rw [arrivalState_of_free P _ _ s hfree.1 hfree.2]
        intro c hc
        simp at hc
      · have hbusy : s.tellerAvailable = false ∨ s.bankLine ≠ [] := by
          by_cases ht : s.tellerAvailable = true
          · exact Or.inr (fun hl => hfree ⟨ht, hl⟩)
          · exact Or.inl (by simpa using ht)
        rw [arrivalState_of_busy P _ _ s hbusy]
        simp only [hpop]
        intro c hc x hx hxk
        have hx2 := Multiset.mem_of_mem_erase hx
        rcases List.mem_append.1 hc with h | h
        · exact hbound c h x hx2 hxk
        · rw [List.mem_singleton] at h
          rw [h]
          exact hmin _ _ htop x hx2
  · have hpop := hP.contents_pop _ _ htop
    refine ⟨?_, ?_⟩
    · rw [heq]
      exact departureState_lineSorted P s _ hsorted
    · rw [heq]
      cases hl : s.bankLine with
      | nil =>
        rw [departureState_of_nil P _ s hl]
        intro c hc
        simp at hc
      | cons c0 rest =>
        rw [departureState_of_cons P _ s c0 rest hl]
        simp only [hP.contents_push, hpop]
        intro c hc x hx hxk
        have hc2 : c ∈ s.bankLine := by rw [hl]; exact List.mem_cons_of_mem _ hc
        rcases Multiset.mem_cons.1 hx with hxe | hxe
        · rw [hxe] at hxk; exact EventKind.noConfusion hxk
        · exact hbound c hc2 x (Multiset.mem_of_mem_erase hxe) hxk

theorem steps_lineSorted {Q : Type} (P : PriorityQueue Q) (hP : P.Lawful)
    (hmin : P.MinTime) (s s' : State Q)
    (hsorted : LineSorted s.bankLine)
    (hbound : ∀ c ∈ s.bankLine, ∀ x ∈ P.contents s.eventQueue,
      x.kind = EventKind.Arrival → c.time ≤ x.time)
    (hsteps : Steps P s s') :
    LineSorted s'.bankLine ∧
      ∀ c ∈ s'.bankLine, ∀ x ∈ P.contents s'.eventQueue,
        x.kind = EventKind.Arrival → c.time ≤ x.time := by
  induction hsteps with
  | refl => exact ⟨hsorted, hbound⟩
  | tail s1 s2 _ hstep ih => exact step_lineSorted P hP hmin s1 s2 ih.1 ih.2 hstep

/-- C18: the bank line stays ordered by arrival time.  If the line is sorted by
non-decreasing arrival time and the time of the event (the one read through
the reference after the pop, which is the event itself when it is passed as a
pointer of the caller's own) is not before the arrival time of any customer in
the line, `processArrival` returns a state whose line is sorted;
`processDeparture` preserves sortedness unconditionally.  Hence, when events
of non-decreasing times are dispatched one after the other, the customers
leave the line in order of arrival, and in every run of the driving loop from
a seed of Arrival events with non-negative durations the line is sorted in
every state. -/
theorem bankLine_stays_sorted {Q : Type} (P : PriorityQueue Q) (hP : P.Lawful)
    (hmin : P.MinTime) :
    (∀ (s : State Q) (ref : EventRef) (atEntry head afterPop : Event),
        ref.read P s.eventQueue = some atEntry → P.top s.eventQueue = some head →
        ref.read P (P.pop s.eventQueue) = some afterPop →
        LineSorted s.bankLine → (∀ c ∈ s.bankLine, c.time ≤ afterPop.time) →
        ∃ s' : State Q, processArrival P ref s = some s' ∧ LineSorted s'.bankLine) ∧
      (∀ (s : State Q) (ref : EventRef) (atEntry head : Event),
        ref.read P s.eventQueue = some atEntry → P.top s.eventQueue = some head →
        LineSorted s.bankLine →
        ∃ s' : State Q, processDeparture P ref s = some s' ∧ LineSorted s'.bankLine) ∧
      (∀ (events : List Event) (s : State Q),
        events.Pairwise (fun a b => a.time ≤ b.time) → LineSorted s.bankLine →
        (∀ c ∈ s.bankLine, ∀ e ∈ events, c.time ≤ e.time) →
        LineSorted (served P events s)) ∧
      (∀ s₀ s : State Q, Seeded P s₀ →
        (∀ e ∈ P.contents s₀.eventQueue, 0 ≤ e.transLength) → Steps P s₀ s →
        LineSorted s.bankLine) := by
  refine ⟨?_, ?_, ?_, ?_⟩
  · intro s ref atEntry head afterPop hentry hhead hafter hsorted hbound
    exact ⟨_, processArrival_eq P ref s atEntry head afterPop hentry hhead hafter,
      arrivalState_lineSorted P s _ afterPop hsorted hbound⟩
  · intro s ref atEntry head hentry hhead hsorted
    exact ⟨_, processDeparture_eq P ref s atEntry head hentry hhead,
      departureState_lineSorted P s _ hsorted⟩
  · intro events s hevents hsorted hbound
    exact served_sorted P events s hevents hsorted hbound
  · intro s₀ s hseed _ hsteps
    have hsorted : LineSorted s₀.bankLine := by
      rw [hseed.2.1]
      exact List.Pairwise.nil
    have hbound : ∀ c ∈ s₀.bankLine, ∀ x ∈ P.contents s₀.eventQueue,
        x.kind = EventKind.Arrival → c.time ≤ x.time := by
      rw [hseed.2.1]
      intro c hc
      simp at hc
    exact (steps_lineSorted P hP hmin s₀ s hsorted hbound hsteps).1

theorem bankLine_stays_sorted_witness :
    listQueue.Lawful ∧ listQueue.MinTime ∧
      served listQueue
          [Event.mk EventKind.Arrival 0 5 0, Event.mk EventKind.Arrival 1 3 0,
            Event.mk EventKind.Arrival 2 1 0, Event.mk EventKind.Departure 5 0 0,
            Event.mk EventKind.Departure 8 0 4, Event.mk EventKind.Departure 9 0 6]
          (State.mk [Event.mk EventKind.Arrival 0 5 0, Event.mk EventKind.Arrival 1 3 0,
            Event.mk EventKind.Arrival 2 1 0] [] true)
        = [Customer.mk 1 3, Customer.mk 2 1] ∧
      LineSorted (served listQueue
        [Event.mk EventKind.Arrival 0 5 0, Event.mk EventKind.Arrival 1 3 0,
          Event.mk EventKind.Arrival 2 1 0, Event.mk EventKind.Departure 5 0 0,
          Event.mk EventKind.Departure 8 0 4, Event.mk EventKind.Departure 9 0 6]
        (State.mk [Event.mk EventKind.Arrival 0 5 0, Event.mk EventKind.Arrival 1 3 0,
          Event.mk EventKind.Arrival 2 1 0] [] true)) :=
  ⟨listQueue_lawful, listQueue_minTime, by decide,
    (bankLine_stays_sorted listQueue listQueue_lawful listQueue_minTime).2.2.1
      [Event.mk EventKind.Arrival 0 5 0, Event.mk EventKind.Arrival 1 3 0,
        Event.mk EventKind.Arrival 2 1 0, Event.mk EventKind.Departure 5 0 0,
        Event.mk EventKind.Departure 8 0 4, Event.mk EventKind.Departure 9 0 6]
      (State.mk [Event.mk EventKind.Arrival 0 5 0, Event.mk EventKind.Arrival 1 3 0,
        Event.mk EventKind.Arrival 2 1 0] [] true)
      (by decide) List.Pairwise.nil (by intro c hc; simp at hc)⟩

end EventDrivenSimulation
